import Mathlib

/-!
Shallow embedding of the deterministic chat contract and of the pure parts of
the AI-oracle feature of the Trac AI chat example application.

Conventions of the embedding:
* JavaScript strings are modelled as `List Char`,
* the replicated key/value store of the contract is modelled as typed fields of
  `ChatState`; every reader of the numeric keys parses a missing value to `0`
  and every reader of the sliding-window key parses a missing value to `[]`,
  so absent keys are collapsed to these defaults,
* `Math.floor(a / b)` on numbers is modelled as `Int.fdiv`,
* the JavaScript `x % n === 0` test is modelled with Lean's `Int` remainder
  (both remainder conventions are zero exactly on the multiples of `n`),
* `parseInt` results that may be `NaN` are modelled as `Option Int`, with
  `none` for `NaN`.
-/

namespace TracAiChat

/-- A `chat/pending/<seq>` entry (the source field `from` is a Lean keyword and
is named `fromAddr` here). -/
structure PendingEntry where
  fromAddr : List Char
  prompt : List Char
  type : List Char
  timestamp : Int
deriving DecidableEq

/-- A `chat/done/<seq>` entry. -/
structure DoneEntry where
  fromAddr : List Char
  prompt : List Char
  reply : List Char
  timestamp : Int
deriving DecidableEq

/-- The replicated store of the contract, as typed fields.  `admin` is written
only by the host framework (`/add_admin`), never by the handlers modelled
here, so it appears as a constant field.  `msgl` is the host-maintained chat
log length read by the timestamp bookkeeping.  `admissions` is a ghost
observer log: it records `(sender, trusted time)` for every successful
enqueue and influences no other field. -/
structure ChatState where
  currentTime : Option Int
  admin : Option (List Char)
  message_seq : Int
  process_seq : Int
  random_message_seq : Int
  random_process_seq : Int
  pending : Int → Option PendingEntry
  pendingRandom : Int → Option PendingEntry
  done : Int → Option DoneEntry
  doneRandom : Int → Option DoneEntry
  summary : Option (List Char)
  rlDay : List Char → Int → Int
  rlWindow : List Char → List Int
  msgl : Int
  msgts : Int → Option Int
  admissions : List (List Char × Int)

/-- `pat` occurs at the head of `l` (the head test of an `indexOf` search). -/
def startsList : List Char → List Char → Bool
  | [], _ => true
  | _ :: _, [] => false
  | p :: ps, c :: cs => p == c && startsList ps cs

/-- `l.indexOf(pat)`: index of the first occurrence of `pat` in `l`, if any. -/
def idxOf? (pat : List Char) : List Char → Option Nat
  | [] => if startsList pat [] then some 0 else none
  | c :: cs => if startsList pat (c :: cs) then some 0 else (idxOf? pat cs).map (· + 1)

/-- `String.prototype.trim` (ASCII whitespace, which covers the embedding). -/
def trimList (l : List Char) : List Char :=
  ((l.dropWhile Char.isWhitespace).reverse.dropWhile Char.isWhitespace).reverse

/-- The random-participation test of the message handler (README.md contract,
random branch): fold `acc = (acc + msg.charCodeAt(i)) % 0x7fffffff` over the
message, then select iff `((acc + Math.floor(now / 60000)) % 20) === 0`. -/
def randomSelected (msg : List Char) (now : Int) : Bool :=
  let minuteKey : Int := Int.fdiv now 60000
  let acc : Int := msg.foldl (fun acc c => (acc + (c.toNat : Int)) % 0x7fffffff) 0
  (acc + minuteKey) % 20 == 0

/-- The data the message handler carries from its guard section to its enqueue
section when it admits a message. -/
structure AdmitInfo where
  prompt : List Char
  type : List Char
  now : Int
  dayKey : Int
  dailyCount : Int
  last3 : List Int
deriving DecidableEq

def aiReplyMarker : List Char := "ai-reply".toList

def atAiToken : List Char := "@ai".toList

/-- Prompt extraction of the tagged branch: the text after the first
occurrence of `@ai` in the lowercased message (sliced from the original
message), trimmed, with one leading colon dropped and re-trimmed. -/
def tagPrompt (msg : List Char) : List Char :=
  let at_ := (idxOf? atAiToken (msg.map Char.toLower)).getD 0
  let prompt0 := trimList (msg.drop (at_ + 3))
  if prompt0.headD ' ' == ':' then trimList (prompt0.drop 1) else prompt0

/-- Sliding-window eviction: keep the timestamps at or after `now - 60000`.
The stored window holds only numbers in every reachable state, so the
`typeof ts === 'number'` part of the source filter is captured by typing. -/
def evictWindow (now : Int) (l : List Int) : List Int :=
  l.filter (fun ts => now - 60000 ≤ ts)

/-- Guard section of the message handler: returns `none` when the event is
rejected (no enqueue) and `some info` when it is admitted.  The guards appear
in source order: reply-marker attachment, trusted time missing, admin sender,
daily cap (reject at `>= 1500`), 60s sliding window after eviction (reject at
`>= 10`), then classification — prompt extraction after the first `@ai` for
tagged messages (reject an empty prompt), or the mention-free
random-participation test. -/
def admitDecision (s : ChatState) (addr msg : List Char)
    (attachments : List (List Char)) : Option AdmitInfo :=
  if attachments.contains aiReplyMarker then none else
  match s.currentTime with
  | none => none
  | some now =>
    if s.admin = some addr then none else
    if 1500 ≤ s.rlDay addr (Int.fdiv now 86400000) then none else
    if 10 ≤ (evictWindow now (s.rlWindow addr)).length then none else
    if (idxOf? atAiToken (msg.map Char.toLower)).isSome then
      if tagPrompt msg = [] then none
      else some ⟨tagPrompt msg, "tagged".toList, now, Int.fdiv now 86400000,
        s.rlDay addr (Int.fdiv now 86400000), evictWindow now (s.rlWindow addr)⟩
    else
      if msg.contains '@' then none else
      if randomSelected msg now then
        some ⟨trimList msg, "random".toList, now, Int.fdiv now 86400000,
          s.rlDay addr (Int.fdiv now 86400000), evictWindow now (s.rlWindow addr)⟩
      else none

/-- `Array.prototype.slice(-10)`. -/
def lastTen (l : List Int) : List Int :=
  if 10 < l.length then l.drop (l.length - 10) else l

/-- Enqueue section of the message handler: write the pending entry, persist
the rate-limit counters (the source guards the counter writes with
`false === isAdmin`, which always holds on this path because admin senders
returned in the guard section), and set `message_seq` to the new sequence.
The ghost `admissions` log records the admission. -/
def enqueue (s : ChatState) (addr : List Char) (info : AdmitInfo) : ChatState :=
  let nextSeq := s.message_seq + 1
  let entry : PendingEntry :=
    { fromAddr := addr, prompt := info.prompt, type := info.type, timestamp := info.now }
  { s with
    pending := fun n => if n = nextSeq then some entry else s.pending n,
    rlWindow := fun a => if a = addr then lastTen (info.last3 ++ [info.now]) else s.rlWindow a,
    rlDay := fun a d => if a = addr ∧ d = info.dayKey then info.dailyCount + 1 else s.rlDay a d,
    message_seq := nextSeq,
    admissions := s.admissions ++ [(addr, info.now)] }

/-- Timestamp bookkeeping at the top of the message handler: when a trusted
time is available, store it at `msgts/<msgl>` regardless of whether the
message is later rejected. -/
def recordTs (s : ChatState) : ChatState :=
  match s.currentTime with
  | some now => { s with msgts := fun n => if n = s.msgl then some now else s.msgts n }
  | none => s

/-- The whole message handler: timestamp bookkeeping, then guard section, then
(on admission) the enqueue section. -/
def applyMessage (s : ChatState) (addr msg : List Char)
    (attachments : List (List Char)) : ChatState :=
  match admitDecision (recordTs s) addr msg attachments with
  | none => recordTs s
  | some info => enqueue (recordTs s) addr info

/-- The pending-to-done transition of the `ai_result` handler: if a pending
entry exists for the seq in the selected queue, build the done entry from it
plus the supplied reply (missing reply read as `''`), write it and delete the
pending entry. -/
def aiResultWrite (s : ChatState) (queueRandom : Bool) (seq : Int)
    (reply : Option (List Char)) : ChatState :=
  match (if queueRandom then s.pendingRandom seq else s.pending seq) with
  | some p =>
    if queueRandom then
      { s with
        doneRandom := fun n => if n = seq then
          some ⟨p.fromAddr, p.prompt, reply.getD [], p.timestamp⟩ else s.doneRandom n,
        pendingRandom := fun n => if n = seq then none else s.pendingRandom n }
    else
      { s with
        done := fun n => if n = seq then
          some ⟨p.fromAddr, p.prompt, reply.getD [], p.timestamp⟩ else s.done n,
        pending := fun n => if n = seq then none else s.pending n }
  | none => s

/-- The summary write of the `ai_result` handler: overwrite `ai/summary` when
a string is supplied. -/
def aiResultSummary (s : ChatState) (summary? : Option (List Char)) : ChatState :=
  match summary? with
  | some str => { s with summary := some str }
  | none => s

/-- The `ai_feature` handler for `op.key === 'ai_result'`: parse the seq
(reject `NaN` and values `< 1`), perform the pending-to-done transition and
the summary write, then unconditionally store the seq into the process
pointer of the selected queue.  `queueRandom` models
`payload.queue === 'random'`. -/
def applyAiResult (s : ChatState) (queueRandom : Bool) (seq? : Option Int)
    (reply : Option (List Char)) (summary? : Option (List Char)) : ChatState :=
  match seq? with
  | none => s
  | some seq =>
    if seq < 1 then s
    else if queueRandom then
      { aiResultSummary (aiResultWrite s true seq reply) summary? with
        random_process_seq := seq }
    else
      { aiResultSummary (aiResultWrite s false seq reply) summary? with
        process_seq := seq }

/-- `if (seq > maxSeq) seq = maxSeq`. -/
def clampTo (maxSeq seq0 : Int) : Int := if maxSeq < seq0 then maxSeq else seq0

/-- The `ai_feature` handler for `op.key === 'ai_ctrl'` with
`payload.op === 'fast_forward'` (other control ops are ignored by the source
and are not modelled): parse the seq (reject `NaN` and values `< 0`), clamp it
to the stored message pointer, and advance the process pointer only if the
clamped value exceeds it. -/
def applyFastForward (s : ChatState) (queueRandom : Bool) (seq? : Option Int) : ChatState :=
  match seq? with
  | none => s
  | some seq0 =>
    if seq0 < 0 then s
    else if queueRandom then
      if s.random_process_seq < clampTo s.random_message_seq seq0 then
        { s with random_process_seq := clampTo s.random_message_seq seq0 }
      else s
    else
      if s.process_seq < clampTo s.message_seq seq0 then
        { s with process_seq := clampTo s.message_seq seq0 }
      else s

/-- The replayed events the contract reacts to. -/
inductive Event where
  | timer (t : Int)
  | chatMsg (addr msg : List Char) (attachments : List (List Char))
  | aiResult (queueRandom : Bool) (seq? : Option Int)
      (reply : Option (List Char)) (summary? : Option (List Char))
  | fastForward (queueRandom : Bool) (seq? : Option Int)
deriving DecidableEq

/-- One replayed event.  The timer feature stores the injected trusted time. -/
def step (s : ChatState) : Event → ChatState
  | .timer t => { s with currentTime := some t }
  | .chatMsg addr msg atts => applyMessage s addr msg atts
  | .aiResult q seq? r sm => applyAiResult s q seq? r sm
  | .fastForward q seq? => applyFastForward s q seq?

/-- Replaying a list of events in order. -/
def replay (s : ChatState) (evs : List Event) : ChatState := evs.foldl step s

/-- The empty store (no key present), with a given admin identity. -/
def initState (admin : Option (List Char)) : ChatState :=
  { currentTime := none, admin := admin,
    message_seq := 0, process_seq := 0,
    random_message_seq := 0, random_process_seq := 0,
    pending := fun _ => none, pendingRandom := fun _ => none,
    done := fun _ => none, doneRandom := fun _ => none,
    summary := none,
    rlDay := fun _ _ => 0, rlWindow := fun _ => [],
    msgl := 0, msgts := fun _ => none,
    admissions := [] }

/-! ### C1: the sequence-pointer invariant -/

/-- `SeqInv`: the invariant asserted by the specification for the tagged
pointers. -/
def SeqInv (s : ChatState) : Prop :=
  0 ≤ s.process_seq ∧ s.process_seq ≤ s.message_seq

/-- A tagged `ai_result` event is "good" when its seq lies between the current
`process_seq` and `message_seq` — exactly the seqs the oracle loop emits. -/
def goodEvent (s : ChatState) : Event → Bool
  | .aiResult false (some seq) _ _ =>
      seq < 1 || (s.process_seq ≤ seq && seq ≤ s.message_seq)
  | _ => true

/-- All events of the trace are good, each relative to the state it is applied
in. -/
def goodTrace : ChatState → List Event → Bool
  | _, [] => true
  | s, e :: rest => goodEvent s e && goodTrace (step s e) rest

/-- `PendingDoneInv`: every pending or done seq is at most `message_seq`, and
no seq is both pending and done. -/
def PendingDoneInv (s : ChatState) : Prop :=
  (∀ n, (s.pending n).isSome → n ≤ s.message_seq) ∧
  (∀ n, (s.done n).isSome → n ≤ s.message_seq) ∧
  (∀ n, ¬ (((s.pending n).isSome) ∧ ((s.done n).isSome)))

/-! ### C3: rate limits over replays -/

/-- The admission times of a user, read off the ghost log (one entry per
pending-entry write). -/
def admTimes (s : ChatState) (a : List Char) : List Int :=
  (s.admissions.filter (fun p => p.1 = a)).map Prod.snd

/-- The trusted-clock monotonicity assumption on a trace: every timer value is
at least the trusted time that is current when it is applied (only timer
events write `currentTime`). -/
def clockOk : Option Int → List Event → Bool
  | _, [] => true
  | c, .timer t :: rest =>
      (match c with
       | none => true
       | some prev => decide (prev ≤ t)) && clockOk (some t) rest
  | c, _ :: rest => clockOk c rest

/-- The rate-limit invariant carried through every replay.  `admTimes` is the
ghost record of pending-entry creations per user. -/
structure RlInv (s : ChatState) : Prop where
  sorted : ∀ a, (admTimes s a).Sorted (· ≤ ·)
  timeBound : ∀ a, ∀ t ∈ admTimes s a, ∀ c, s.currentTime = some c → t ≤ c
  noClock : s.currentTime = none → ∀ a, admTimes s a = [] ∧ s.rlWindow a = []
  window : ∀ a, ∃ w₁, admTimes s a = w₁ ++ s.rlWindow a ∧
    ∀ t ∈ w₁, ∀ c, s.currentTime = some c → t < c - 60000
  day : ∀ a d, s.rlDay a d =
      ((admTimes s a).filter (fun t => Int.fdiv t 86400000 = d)).length ∧
    s.rlDay a d ≤ 1500
  winCount : ∀ a T,
    ((admTimes s a).filter (fun t => T ≤ t ∧ t ≤ T + 60000)).length ≤ 10

/-! ### C5: the completion-endpoint retry policy -/

/-- The minimized context every retry attempt sends: a short system
instruction plus the prompt truncated by `slice(0, 2000)`. -/
def minimalContext (prompt : List Char) : List (List Char × List Char) :=
  [("system".toList, "Be brief and helpful.".toList),
   ("user".toList, prompt.take 2000)]

/-- Backoff slept after a failed retry attempt: `1000 * Math.pow(2, attempt)`
milliseconds. -/
def backoffMs (attempt : Nat) : Nat := 1000 * 2 ^ attempt

/-- The retry loop `for (attempt = 0; attempt < 3 && !success; attempt++)`:
`outcome k` is the parsed reply text when attempt `k` gets an OK response and
`none` when it fails; the first success wins.  The fuel mirrors the three
available iterations. -/
def retryFrom (outcome : Nat → Option (List Char)) : Nat → Nat → Option (List Char)
  | 0, _ => none
  | fuel + 1, attempt =>
    if attempt < 3 then
      match outcome attempt with
      | some t => some t
      | none => retryFrom outcome fuel (attempt + 1)
    else none

def runRetries (outcome : Nat → Option (List Char)) : Option (List Char) :=
  retryFrom outcome 3 0

/-- The fixed apology reply of both failure branches. -/
def apologyText : List Char := "sorry, am busy please try again".toList

/-- The resolution of a failed call: either a reply text to post and commit,
or abandoning the attempt (inflight dropped, same seq retried next loop). -/
inductive RetryResult where
  | reply (text : List Char)
  | abandon
deriving DecidableEq

/-- The shared shape of the two failure branches of `AiOracle.start` (non-OK
status and transport error): run up to 3 minimized-context retries; if none
succeeds, abandon when still within the 5s post-success grace window (with
the 12s silent cap not yet expired) or within the warm-up interval since the
seq went inflight, else resolve to the fixed apology text. -/
def retryBranchResult (outcome : Nat → Option (List Char))
    (withinGrace withinWarmup silentCapOpen : Bool) : RetryResult :=
  match runRetries outcome with
  | some t => .reply t
  | none =>
    if (withinGrace && silentCapOpen) || withinWarmup then .abandon
    else .reply apologyText

/-! ### C9: the reply shrink loop -/

/-- One shrink step of the reply-fitting loop:
`newLen = Math.floor(replyCandidate.length * 0.8)` (the floating-point
`* 0.8` agrees with the exact `* 4 / 5` at every length evaluated here),
`nextLen = newLen < len ? newLen : Math.max(0, len - 200)`; the result is
`none` when the loop sets `prepared = null` and breaks
(`nextLen === len || nextLen <= 0`). -/
def shrinkStep (len : Nat) : Option Nat :=
  let newLen := len * 4 / 5
  let nextLen := if newLen < len then newLen else len - 200
  if nextLen = len ∨ nextLen = 0 then none else some nextLen

/-- The shrink loop (`while (attempts < maxAttempts)` with `maxAttempts = 10`;
the fuel counts the remaining attempts): `fits` abstracts `api.prepareMessage`
accepting the composed `mention + ' ' + candidate`.  Returns the candidate
length that fits, or `none` when the fixed "(reply trimmed)" notice is posted
instead. -/
def shrinkLoopFuel (fits : Nat → Bool) : Nat → Nat → Option Nat
  | 0, _ => none
  | fuel + 1, len =>
    if fits len then some len
    else
      match shrinkStep len with
      | none => none
      | some next => shrinkLoopFuel fits fuel next

def shrinkLoop (fits : Nat → Bool) (len : Nat) : Option Nat :=
  shrinkLoopFuel fits 10 len

/-! ### C10: the startup fast-forward -/

/-- The one-shot control op `AiOracle.start` emits before entering its loop
when the stored pointers show a backlog (`ms > ps`). -/
def startupFastForward (ps ms : Int) : Option Int :=
  if ps < ms then some ms else none

/-- The seq selection of each loop iteration: work on `process_seq + 1` when
`message_seq > process_seq`, otherwise sleep. -/
def chooseNext (ps ms : Int) : Option Int :=
  if ps < ms then some (ps + 1) else none

/-! ### C4: mention demotion in the reply sanitizer

The four demotion passes of `AiOracle.start` are embedded as left-to-right
scanners over the original text, which is exactly how a global
`String.prototype.replace` finds its non-overlapping matches.  Each scanner
recurses on a fuel that starts at the length of its input (every step consumes
at least one character, so the fuel never runs out on those calls; an
exhausted fuel returns the remaining text unchanged).  The case-insensitive
flag on the literal tokens is embedded as explicit two-character tests. -/

/-- JavaScript `\w`: ASCII letters, digits, underscore. -/
def isWordChar (c : Char) : Bool := c.isAlpha || c.isDigit || c == '_'

/-- `\b` directly after a word character: the following text is empty or
starts with a non-word character. -/
def boundaryAfterWordChar : List Char → Bool
  | [] => true
  | c :: _ => !(isWordChar c)

def ciA (c : Char) : Bool := c == 'a' || c == 'A'

def ciI (c : Char) : Bool := c == 'i' || c == 'I'

def ciY (c : Char) : Bool := c == 'y' || c == 'Y'

def ciO (c : Char) : Bool := c == 'o' || c == 'O'

def ciU (c : Char) : Bool := c == 'u' || c == 'U'

/-- Does the text after a `@` start the trigger token tail `ai`
(case-insensitively) followed by a word boundary?  This is what
`/@ai\b/gi` requires after its `@`. -/
def atAiHere : List Char → Bool
  | c1 :: c2 :: rest2 => ciA c1 && ciI c2 && boundaryAfterWordChar rest2
  | _ => false

/-- The text contains an occurrence of `@ai` (case-insensitive) at a word
boundary — an occurrence `/@ai\b/gi` would match. -/
def hasAtAi : List Char → Bool
  | [] => false
  | c :: rest => (c == '@' && atAiHere rest) || hasAtAi rest

def headIsAt : List Char → Bool
  | c :: _ => c == '@'
  | [] => false

/-- No two adjacent `@` characters. -/
def noDoubleAt : List Char → Bool
  | [] => true
  | c :: rest => !(c == '@' && headIsAt rest) && noDoubleAt rest

/-- `aiText.replace(/@you\b/gi, 'you')`. -/
def demoteYouGo : Nat → List Char → List Char
  | 0, s => s
  | _ + 1, [] => []
  | fuel + 1, c :: rest =>
    if c == '@' then
      match rest with
      | c1 :: c2 :: c3 :: rest3 =>
        if ciY c1 && ciO c2 && ciU c3 && boundaryAfterWordChar rest3 then
          'y' :: 'o' :: 'u' :: demoteYouGo fuel rest3
        else '@' :: demoteYouGo fuel rest
      | _ => '@' :: demoteYouGo fuel rest
    else c :: demoteYouGo fuel rest

/-- `aiText.replace(/@ai\b/gi, 'ai')`. -/
def demoteAiGo : Nat → List Char → List Char
  | 0, s => s
  | _ + 1, [] => []
  | fuel + 1, c :: rest =>
    if c == '@' then
      match rest with
      | c1 :: c2 :: rest2 =>
        if ciA c1 && ciI c2 && boundaryAfterWordChar rest2 then
          'a' :: 'i' :: demoteAiGo fuel rest2
        else '@' :: demoteAiGo fuel rest
      | _ => '@' :: demoteAiGo fuel rest
    else c :: demoteAiGo fuel rest

/-- Case-insensitive literal match of the escaped tag against the text after
a `@`; returns the remainder on success. -/
def ciMatch : List Char → List Char → Option (List Char)
  | [], rest => some rest
  | _ :: _, [] => none
  | t :: ts, c :: cs => if c.toLower == t.toLower then ciMatch ts cs else none

def nextIsWord : List Char → Bool
  | [] => false
  | c :: _ => isWordChar c

/-- Word-character-ness of the last character the pattern `@<tag>` matches:
the last tag character, or the `@` itself for an empty tag.  (A character and
its case-insensitive match have the same word-character-ness, so the tag's
own character stands in for the matched one.) -/
def tagLastWord (tag : List Char) : Bool :=
  match tag.getLast? with
  | none => false
  | some c => isWordChar c

/-- The `\b` after `@<tag>`: a boundary between the last matched character
and the remainder. -/
def tagTailBoundary (tag : List Char) (rest2 : List Char) : Bool :=
  tagLastWord tag != nextIsWord rest2

/-- `aiText.replace(new RegExp('\\B@' + escapeRe(tag) + '\\b', 'gi'), tag)`.
`prevW` tracks whether the previously scanned character of the original text
is a word character; `\B` before the `@` holds exactly when it is not (also
at the start of the text, since `@` is a non-word character). -/
def demoteTagGo (tag : List Char) : Nat → Bool → List Char → List Char
  | 0, _, s => s
  | _ + 1, _, [] => []
  | fuel + 1, prevW, c :: rest =>
    if c == '@' then
      if prevW then '@' :: demoteTagGo tag fuel false rest
      else
        match ciMatch tag rest with
        | some rest2 =>
          if tagTailBoundary tag rest2 then
            tag ++ demoteTagGo tag fuel (tagLastWord tag) rest2
          else '@' :: demoteTagGo tag fuel false rest
        | none => '@' :: demoteTagGo tag fuel false rest
    else c :: demoteTagGo tag fuel (isWordChar c) rest

/-- `[a-f0-9]` with the `i` flag. -/
def isHexChar (c : Char) : Bool :=
  ('a' ≤ c && c ≤ 'f') || ('A' ≤ c && c ≤ 'F') || ('0' ≤ c && c ≤ '9')

/-- Match exactly `n` hex characters, returning them (case preserved, as the
`$1` back-reference does) together with the remainder. -/
def hexMatch : Nat → List Char → Option (List Char × List Char)
  | 0, rest => some ([], rest)
  | _ + 1, [] => none
  | n + 1, c :: rest =>
    if isHexChar c then
      match hexMatch n rest with
      | some (hx, rest2) => some (c :: hx, rest2)
      | none => none
    else none

/-- `aiText.replace(/@([a-f0-9]{64})\b/gi, '$1')`. -/
def demoteHexGo : Nat → List Char → List Char
  | 0, s => s
  | _ + 1, [] => []
  | fuel + 1, c :: rest =>
    if c == '@' then
      match hexMatch 64 rest with
      | some (hx, rest2) =>
        if boundaryAfterWordChar rest2 then hx ++ demoteHexGo fuel rest2
        else '@' :: demoteHexGo fuel rest
      | none => '@' :: demoteHexGo fuel rest
    else c :: demoteHexGo fuel rest

/-- The four demotion passes in source order: `@you`, then the trigger token,
then repeated mentions of the resolved tag, then raw 64-hex address
mentions. -/
def sanitizeReply (tag aiText : List Char) : List Char :=
  let s1 := demoteYouGo aiText.length aiText
  let s2 := demoteAiGo s1.length s1
  let s3 := demoteTagGo tag s2.length false s2
  demoteHexGo s3.length s3

/-! ### Basic facts about the handlers -/

@[simp] theorem recordTs_currentTime (s : ChatState) :
    (recordTs s).currentTime = s.currentTime := by
  rcases hc : s.currentTime with _ | t <;> simp [recordTs, hc]

@[simp] theorem recordTs_admin (s : ChatState) : (recordTs s).admin = s.admin := by
  rcases hc : s.currentTime with _ | t <;> simp [recordTs, hc]

@[simp] theorem recordTs_message_seq (s : ChatState) :
    (recordTs s).message_seq = s.message_seq := by
  rcases hc : s.currentTime with _ | t <;> simp [recordTs, hc]

@[simp] theorem recordTs_process_seq (s : ChatState) :
    (recordTs s).process_seq = s.process_seq := by
  rcases hc : s.currentTime with _ | t <;> simp [recordTs, hc]

@[simp] theorem recordTs_pending (s : ChatState) : (recordTs s).pending = s.pending := by
  rcases hc : s.currentTime with _ | t <;> simp [recordTs, hc]

@[simp] theorem recordTs_done (s : ChatState) : (recordTs s).done = s.done := by
  rcases hc : s.currentTime with _ | t <;> simp [recordTs, hc]

@[simp] theorem recordTs_rlDay (s : ChatState) : (recordTs s).rlDay = s.rlDay := by
  rcases hc : s.currentTime with _ | t <;> simp [recordTs, hc]

@[simp] theorem recordTs_rlWindow (s : ChatState) : (recordTs s).rlWindow = s.rlWindow := by
  rcases hc : s.currentTime with _ | t <;> simp [recordTs, hc]

@[simp] theorem recordTs_admissions (s : ChatState) :
    (recordTs s).admissions = s.admissions := by
  rcases hc : s.currentTime with _ | t <;> simp [recordTs, hc]

theorem applyMessage_cases (s : ChatState) (addr msg : List Char)
    (atts : List (List Char)) :
    (admitDecision (recordTs s) addr msg atts = none ∧
      applyMessage s addr msg atts = recordTs s) ∨
    (∃ info, admitDecision (recordTs s) addr msg atts = some info ∧
      applyMessage s addr msg atts = enqueue (recordTs s) addr info) := by
  unfold applyMessage
  rcases h : admitDecision (recordTs s) addr msg atts with _ | info
  · exact Or.inl ⟨rfl, rfl⟩
  · exact Or.inr ⟨info, rfl, rfl⟩

theorem applyMessage_process_seq (s : ChatState) (addr msg : List Char)
    (atts : List (List Char)) :
    (applyMessage s addr msg atts).process_seq = s.process_seq := by
  rcases applyMessage_cases s addr msg atts with ⟨_, h⟩ | ⟨info, _, h⟩ <;>
    simp [h, enqueue]

theorem applyMessage_message_seq (s : ChatState) (addr msg : List Char)
    (atts : List (List Char)) :
    (applyMessage s addr msg atts).message_seq = s.message_seq ∨
    (applyMessage s addr msg atts).message_seq = s.message_seq + 1 := by
  rcases applyMessage_cases s addr msg atts with ⟨_, h⟩ | ⟨info, _, h⟩ <;>
    simp [h, enqueue]

theorem aiResultWrite_message_seq (s : ChatState) (q : Bool) (seq : Int)
    (r : Option (List Char)) :
    (aiResultWrite s q seq r).message_seq = s.message_seq := by
  unfold aiResultWrite
  split
  · split <;> rfl
  · rfl

theorem aiResultWrite_process_seq (s : ChatState) (q : Bool) (seq : Int)
    (r : Option (List Char)) :
    (aiResultWrite s q seq r).process_seq = s.process_seq := by
  unfold aiResultWrite
  split
  · split <;> rfl
  · rfl

theorem aiResultSummary_message_seq (s : ChatState) (sm : Option (List Char)) :
    (aiResultSummary s sm).message_seq = s.message_seq := by
  unfold aiResultSummary; split <;> rfl

theorem aiResultSummary_process_seq (s : ChatState) (sm : Option (List Char)) :
    (aiResultSummary s sm).process_seq = s.process_seq := by
  unfold aiResultSummary; split <;> rfl

theorem applyAiResult_message_seq (s : ChatState) (q : Bool) (seq? : Option Int)
    (r sm : Option (List Char)) :
    (applyAiResult s q seq? r sm).message_seq = s.message_seq := by
  unfold applyAiResult
  rcases seq? with _ | seq
  · rfl
  · by_cases h : seq < 1
    · simp [h]
    · rcases q <;>
        simp [h, aiResultSummary_message_seq, aiResultWrite_message_seq]

theorem applyAiResult_random_process_seq (s : ChatState) (seq? : Option Int)
    (r sm : Option (List Char)) :
    (applyAiResult s true seq? r sm).process_seq = s.process_seq := by
  unfold applyAiResult
  rcases seq? with _ | seq
  · rfl
  · by_cases h : seq < 1
    · simp [h]
    · simp [h, aiResultSummary_process_seq, aiResultWrite_process_seq]

theorem applyAiResult_tagged_process_seq (s : ChatState) (seq : Int)
    (r sm : Option (List Char)) (h : 1 ≤ seq) :
    (applyAiResult s false (some seq) r sm).process_seq = seq := by
  unfold applyAiResult
  have h' : ¬ seq < 1 := by omega
  simp [h']

theorem applyFastForward_message_seq (s : ChatState) (q : Bool) (seq? : Option Int) :
    (applyFastForward s q seq?).message_seq = s.message_seq := by
  unfold applyFastForward
  rcases seq? with _ | seq0
  · rfl
  · rcases q <;> by_cases h : seq0 < 0 <;> simp [h] <;> split <;> rfl

theorem applyFastForward_random_process_seq (s : ChatState) (seq? : Option Int) :
    (applyFastForward s true seq?).process_seq = s.process_seq := by
  unfold applyFastForward
  rcases seq? with _ | seq0
  · rfl
  · by_cases h : seq0 < 0 <;> simp [h]
    split <;> rfl

/-- The clamped write of the tagged fast-forward handler: the new `process_seq`
is exactly `max process_seq (min requested message_seq)` (using only that the
stored `process_seq` is non-negative, which holds in every reachable state, so
that negative requests — which the handler drops — fall under the `max`). -/
theorem applyFastForward_tagged_process_seq (s : ChatState) (req : Int)
    (h0 : 0 ≤ s.process_seq) :
    (applyFastForward s false (some req)).process_seq =
      max s.process_seq (min req s.message_seq) := by
  unfold applyFastForward clampTo
  by_cases hneg : req < 0
  · simp only [if_pos hneg]
    omega
  · simp only [if_neg hneg, Bool.false_eq_true, if_false]
    by_cases hclamp : s.message_seq < req
    · simp only [if_pos hclamp]
      by_cases hadv : s.process_seq < s.message_seq
      · simp only [if_pos hadv]; omega
      · simp only [if_neg hadv]; omega
    · simp only [if_neg hclamp]
      by_cases hadv : s.process_seq < req
      · simp only [if_pos hadv]; omega
      · simp only [if_neg hadv]; omega

theorem applyFastForward_pending (s : ChatState) (q : Bool) (seq? : Option Int) :
    (applyFastForward s q seq?).pending = s.pending ∧
    (applyFastForward s q seq?).done = s.done ∧
    (applyFastForward s q seq?).doneRandom = s.doneRandom := by
  unfold applyFastForward
  rcases seq? with _ | seq0
  · exact ⟨rfl, rfl, rfl⟩
  · rcases q <;> by_cases h : seq0 < 0 <;> simp [h] <;> split <;>
      exact ⟨rfl, rfl, rfl⟩

theorem seqInv_step (s : ChatState) (e : Event) (hInv : SeqInv s)
    (hg : goodEvent s e = true) :
    SeqInv (step s e) ∧ s.process_seq ≤ (step s e).process_seq := by
  obtain ⟨h0, hle⟩ := hInv
  cases e with
  | timer t => exact ⟨⟨h0, hle⟩, le_refl _⟩
  | chatMsg addr msg atts =>
    have hp := applyMessage_process_seq s addr msg atts
    have hm := applyMessage_message_seq s addr msg atts
    constructor
    · constructor
      · simpa [step, hp] using h0
      · rcases hm with hm | hm <;> simp [step, hp, hm] <;> omega
    · simp [step, hp]
  | aiResult q seq? r sm =>
    have hm := applyAiResult_message_seq s q seq? r sm
    rcases q with _ | _
    · -- tagged
      rcases seq? with _ | seq
      · exact ⟨⟨by simpa [step], by simpa [step, hm] using hle⟩, le_refl _⟩
      · by_cases hlow : seq < 1
        · have : applyAiResult s false (some seq) r sm = s := by
            unfold applyAiResult
            dsimp only
            rw [if_pos hlow]
          exact ⟨⟨by simpa [step, this], by simpa [step, this] using hle⟩,
            by simp [step, this]⟩
        · have h1 : (1 : Int) ≤ seq := by omega
          have hp := applyAiResult_tagged_process_seq s seq r sm h1
          have hgood : s.process_seq ≤ seq ∧ seq ≤ s.message_seq := by
            simp only [goodEvent] at hg
            rcases Bool.or_eq_true_iff.mp hg with hbad | hok
            · exact absurd (by exact_mod_cast of_decide_eq_true hbad) (by omega)
            · obtain ⟨ha, hb⟩ := Bool.and_eq_true_iff.mp hok
              exact ⟨of_decide_eq_true ha, of_decide_eq_true hb⟩
          exact ⟨⟨by simp [step, hp]; omega, by simp [step, hp, hm]; omega⟩,
            by simp [step, hp]; omega⟩
    · -- random queue: tagged pointers untouched
      have hp := applyAiResult_random_process_seq s seq? r sm
      exact ⟨⟨by simpa [step, hp] using h0, by simpa [step, hp, hm] using hle⟩,
        by simp [step, hp]⟩
  | fastForward q seq? =>
    have hm := applyFastForward_message_seq s q seq?
    rcases q with _ | _
    · rcases seq? with _ | req
      · exact ⟨⟨by simpa [step], by simpa [step, hm] using hle⟩, le_refl _⟩
      · have hp := applyFastForward_tagged_process_seq s req h0
        refine ⟨⟨?_, ?_⟩, ?_⟩ <;> simp [step, hp, hm] <;> omega
    · have hp := applyFastForward_random_process_seq s seq?
      exact ⟨⟨by simpa [step, hp] using h0, by simpa [step, hp, hm] using hle⟩,
        by simp [step, hp]⟩

theorem seqInv_replay (evs : List Event) : ∀ (s : ChatState), SeqInv s →
    goodTrace s evs = true →
    SeqInv (replay s evs) ∧ s.process_seq ≤ (replay s evs).process_seq := by
  induction evs with
  | nil => exact fun s hInv _ => ⟨hInv, le_refl _⟩
  | cons e rest ih =>
    intro s hInv hG
    have hg : goodEvent s e = true ∧ goodTrace (step s e) rest = true := by
      simpa [goodTrace] using hG
    obtain ⟨hstepInv, hstepLe⟩ := seqInv_step s e hInv hg.1
    obtain ⟨h1, h2⟩ := ih (step s e) hstepInv hg.2
    exact ⟨h1, le_trans hstepLe h2⟩

theorem goodTrace_append (pre suf : List Event) : ∀ s : ChatState,
    goodTrace s (pre ++ suf) = true →
    goodTrace s pre = true ∧ goodTrace (replay s pre) suf = true := by
  induction pre with
  | nil => exact fun s h => ⟨rfl, h⟩
  | cons e rest ih =>
    intro s h
    simp only [List.cons_append, goodTrace, Bool.and_eq_true] at h
    obtain ⟨hg, hrest⟩ := h
    obtain ⟨h1, h2⟩ := ih (step s e) hrest
    refine ⟨by simp [goodTrace, hg, h1], ?_⟩
    simpa [replay] using h2

/-- C1 (counterexample): the handlers accept an `ai_result` commit whose seq
exceeds the stored `message_seq` and store its seq into `process_seq`
unconditionally, so a single such replayed event drives `process_seq` above
`message_seq`, refuting the claim as stated for arbitrary replays. -/
theorem c1_counterexample :
    ¬ ((replay (initState none) [Event.aiResult false (some 1) none none]).process_seq ≤
       (replay (initState none) [Event.aiResult false (some 1) none none]).message_seq) := by
  decide

/-- C1 (amended): over every replay in which each applied tagged `ai_result`
carries a seq between the `process_seq` and `message_seq` current at its
application (these are the only commits the oracle loop emits), the stored
`process_seq` is non-decreasing over time, non-negative, and never exceeds the
stored `message_seq`. -/
theorem c1_process_seq_invariant (adm : Option (List Char)) (pre suf : List Event)
    (hG : goodTrace (initState adm) (pre ++ suf) = true) :
    (replay (initState adm) pre).process_seq ≤
      (replay (initState adm) (pre ++ suf)).process_seq ∧
    0 ≤ (replay (initState adm) (pre ++ suf)).process_seq ∧
    (replay (initState adm) (pre ++ suf)).process_seq ≤
      (replay (initState adm) (pre ++ suf)).message_seq := by
  have hInit : SeqInv (initState adm) := ⟨le_refl 0, le_refl 0⟩
  obtain ⟨hPre, hSuf⟩ := goodTrace_append pre suf (initState adm) hG
  obtain ⟨hInvPre, _⟩ := seqInv_replay pre (initState adm) hInit hPre
  obtain ⟨hInvAll, hMono⟩ := seqInv_replay suf (replay (initState adm) pre) hInvPre hSuf
  have hsplit : replay (initState adm) (pre ++ suf) =
      replay (replay (initState adm) pre) suf := by
    simp [replay, List.foldl_append]
  exact ⟨by rw [hsplit]; exact hMono, by rw [hsplit]; exact hInvAll.1,
    by rw [hsplit]; exact hInvAll.2⟩

/-- Witness for the amended C1 theorem at a concrete good replay. -/
theorem c1_process_seq_invariant_witness :
    goodTrace (initState none)
      ([Event.timer 70000, Event.chatMsg ['u'] ("@ai hi".toList) []] ++
       [Event.aiResult false (some 1) (some ("ok".toList)) none]) = true ∧
    ((replay (initState none) [Event.timer 70000, Event.chatMsg ['u'] ("@ai hi".toList) []]).process_seq ≤
      (replay (initState none)
        ([Event.timer 70000, Event.chatMsg ['u'] ("@ai hi".toList) []] ++
         [Event.aiResult false (some 1) (some ("ok".toList)) none])).process_seq ∧
     0 ≤ (replay (initState none)
        ([Event.timer 70000, Event.chatMsg ['u'] ("@ai hi".toList) []] ++
         [Event.aiResult false (some 1) (some ("ok".toList)) none])).process_seq ∧
     (replay (initState none)
        ([Event.timer 70000, Event.chatMsg ['u'] ("@ai hi".toList) []] ++
         [Event.aiResult false (some 1) (some ("ok".toList)) none])).process_seq ≤
      (replay (initState none)
        ([Event.timer 70000, Event.chatMsg ['u'] ("@ai hi".toList) []] ++
         [Event.aiResult false (some 1) (some ("ok".toList)) none])).message_seq) :=
  ⟨by decide, c1_process_seq_invariant none _ _ (by decide)⟩

/-- C6: applying a tagged `fast_forward` control op with any requested seq
sets `process_seq` to `max process_seq (min requested message_seq)` — hence it
never decreases `process_seq`, never raises it above `message_seq` — and it
creates no done entry (in reachable states the stored pointers are
non-negative, which is the only hypothesis used). -/
theorem c6_fast_forward_clamp (s : ChatState) (req : Int)
    (h0 : 0 ≤ s.process_seq) :
    (applyFastForward s false (some req)).process_seq =
      max s.process_seq (min req s.message_seq) ∧
    s.process_seq ≤ (applyFastForward s false (some req)).process_seq ∧
    (s.process_seq ≤ s.message_seq →
      (applyFastForward s false (some req)).process_seq ≤ s.message_seq) ∧
    (applyFastForward s false (some req)).done = s.done ∧
    (applyFastForward s false (some req)).doneRandom = s.doneRandom := by
  have hp := applyFastForward_tagged_process_seq s req h0
  have hd := applyFastForward_pending s false (some req)
  refine ⟨hp, ?_, ?_, hd.2.1, hd.2.2⟩
  · rw [hp]; exact le_max_left _ _
  · intro hle
    rw [hp]
    exact max_le hle (min_le_right _ _)

/-! ### C2: a seq is never both pending and done -/

theorem enqueue_pending (s : ChatState) (addr : List Char) (info : AdmitInfo) :
    (enqueue s addr info).pending = fun n =>
      if n = s.message_seq + 1 then
        some ⟨addr, info.prompt, info.type, info.now⟩ else s.pending n := rfl

theorem enqueue_done (s : ChatState) (addr : List Char) (info : AdmitInfo) :
    (enqueue s addr info).done = s.done := rfl

theorem enqueue_message_seq (s : ChatState) (addr : List Char) (info : AdmitInfo) :
    (enqueue s addr info).message_seq = s.message_seq + 1 := rfl

theorem aiResultSummary_pending (s : ChatState) (sm : Option (List Char)) :
    (aiResultSummary s sm).pending = s.pending := by
  unfold aiResultSummary; split <;> rfl

theorem aiResultSummary_done (s : ChatState) (sm : Option (List Char)) :
    (aiResultSummary s sm).done = s.done := by
  unfold aiResultSummary; split <;> rfl

/-- The two possible shapes of the tagged pending-to-done transition. -/
theorem aiResultWrite_tagged_cases (s : ChatState) (seq : Int)
    (r : Option (List Char)) :
    (s.pending seq = none ∧ aiResultWrite s false seq r = s) ∨
    (∃ p, s.pending seq = some p ∧
      (aiResultWrite s false seq r).pending =
        (fun n => if n = seq then none else s.pending n) ∧
      (aiResultWrite s false seq r).done =
        (fun n => if n = seq then
          some ⟨p.fromAddr, p.prompt, r.getD [], p.timestamp⟩ else s.done n)) := by
  unfold aiResultWrite
  rcases h : s.pending seq with _ | p <;> simp [h]

theorem aiResultWrite_random_tagged_maps (s : ChatState) (seq : Int)
    (r : Option (List Char)) :
    (aiResultWrite s true seq r).pending = s.pending ∧
    (aiResultWrite s true seq r).done = s.done := by
  unfold aiResultWrite
  rcases h : s.pendingRandom seq with _ | p <;> simp [h]

theorem pendingDoneInv_step (s : ChatState) (e : Event) (h : PendingDoneInv s) :
    PendingDoneInv (step s e) := by
  obtain ⟨hp, hd, hx⟩ := h
  cases e with
  | timer t => exact ⟨hp, hd, hx⟩
  | chatMsg addr msg atts =>
    rcases applyMessage_cases s addr msg atts with ⟨_, heq⟩ | ⟨info, _, heq⟩
    · refine ⟨?_, ?_, ?_⟩ <;> simp only [step, heq, recordTs_pending,
        recordTs_done, recordTs_message_seq] <;> assumption
    · refine ⟨?_, ?_, ?_⟩ <;>
        simp only [step, heq, enqueue_pending, enqueue_done, enqueue_message_seq,
          recordTs_pending, recordTs_done, recordTs_message_seq]
      · intro n hn
        by_cases hcase : n = s.message_seq + 1
        · omega
        · simp only [if_neg hcase] at hn
          have := hp n hn
          omega
      · intro n hn
        have := hd n hn
        omega
      · intro n ⟨hn1, hn2⟩
        by_cases hcase : n = s.message_seq + 1
        · have := hd n hn2
          omega
        · simp only [if_neg hcase] at hn1
          exact hx n ⟨hn1, hn2⟩
  | aiResult q seq? r sm =>
    have hms := applyAiResult_message_seq s q seq? r sm
    rcases seq? with _ | seq
    · exact ⟨hp, hd, hx⟩
    · by_cases hlow : seq < 1
      · have : applyAiResult s q (some seq) r sm = s := by
          unfold applyAiResult; simp [hlow]
        rw [step, this]
        exact ⟨hp, hd, hx⟩
      · rcases q with _ | _
        · -- tagged
          have hres : applyAiResult s false (some seq) r sm =
              { aiResultSummary (aiResultWrite s false seq r) sm with
                process_seq := seq } := by
            unfold applyAiResult; simp [hlow]
          rcases aiResultWrite_tagged_cases s seq r with ⟨hnone, heq⟩ |
            ⟨p, hsome, hpend, hdone⟩
          · simp only [step, hres, heq]
            refine ⟨?_, ?_, ?_⟩ <;> simp only [aiResultSummary_pending,
              aiResultSummary_done, aiResultSummary_message_seq] <;> assumption
          · have hseqle : seq ≤ s.message_seq := hp seq (by simp [hsome])
            simp only [step, hres]
            refine ⟨?_, ?_, ?_⟩ <;> simp only [aiResultSummary_pending,
              aiResultSummary_done, aiResultSummary_message_seq,
              aiResultWrite_message_seq, hpend, hdone]
            · intro n hn
              by_cases hcase : n = seq
              · simp [hcase] at hn
              · simp only [if_neg hcase] at hn
                exact hp n hn
            · intro n hn
              by_cases hcase : n = seq
              · omega
              · simp only [if_neg hcase] at hn
                exact hd n hn
            · intro n ⟨hn1, hn2⟩
              by_cases hcase : n = seq
              · simp [hcase] at hn1
              · simp only [if_neg hcase] at hn1 hn2
                exact hx n ⟨hn1, hn2⟩
        · -- random queue: the tagged maps are untouched
          have hres : applyAiResult s true (some seq) r sm =
              { aiResultSummary (aiResultWrite s true seq r) sm with
                random_process_seq := seq } := by
            unfold applyAiResult; simp [hlow]
          obtain ⟨hpend, hdone⟩ := aiResultWrite_random_tagged_maps s seq r
          simp only [step, hres]
          refine ⟨?_, ?_, ?_⟩ <;> simp only [aiResultSummary_pending,
            aiResultSummary_done, aiResultSummary_message_seq,
            aiResultWrite_message_seq, hpend, hdone] <;> assumption
  | fastForward q seq? =>
    obtain ⟨hpend, hdone, _⟩ := applyFastForward_pending s q seq?
    have hms := applyFastForward_message_seq s q seq?
    refine ⟨?_, ?_, ?_⟩ <;> simp only [step, hpend, hdone, hms] <;> assumption

theorem pendingDoneInv_replay (evs : List Event) : ∀ s : ChatState,
    PendingDoneInv s → PendingDoneInv (replay s evs) := by
  induction evs with
  | nil => exact fun s h => h
  | cons e rest ih => exact fun s h => ih (step s e) (pendingDoneInv_step s e h)

/-- C2: over every replay from the empty store, no seq is ever both pending
and done; and the `ai_result` handler applied to a state with a pending entry
for its seq builds the done entry from that pending entry plus the supplied
reply, writes it, and deletes the pending entry in the same handler step. -/
theorem c2_pending_done_exclusive :
    (∀ (adm : Option (List Char)) (evs : List Event) (n : Int),
      ¬ (((replay (initState adm) evs).pending n).isSome ∧
         ((replay (initState adm) evs).done n).isSome)) ∧
    (∀ (s : ChatState) (n : Int) (r sm : Option (List Char)) (p : PendingEntry),
      s.pending n = some p → 1 ≤ n →
      (applyAiResult s false (some n) r sm).done n =
        some ⟨p.fromAddr, p.prompt, r.getD [], p.timestamp⟩ ∧
      (applyAiResult s false (some n) r sm).pending n = none) := by
  constructor
  · intro adm evs n
    have hinit : PendingDoneInv (initState adm) := by
      refine ⟨?_, ?_, ?_⟩ <;> intro n <;> simp [initState]
    exact (pendingDoneInv_replay evs (initState adm) hinit).2.2 n
  · intro s n r sm p hpend hn
    have hres : applyAiResult s false (some n) r sm =
        { aiResultSummary (aiResultWrite s false n r) sm with
          process_seq := n } := by
      unfold applyAiResult
      have : ¬ n < 1 := by omega
      simp [this]
    rcases aiResultWrite_tagged_cases s n r with ⟨hnone, _⟩ |
      ⟨p', hsome, hpend', hdone'⟩
    · rw [hpend] at hnone; exact absurd hnone (by simp)
    · rw [hpend] at hsome
      obtain rfl : p = p' := by injection hsome
      constructor
      · simp [hres, aiResultSummary_done, hdone']
      · simp [hres, aiResultSummary_pending, hpend']

/-- Witness for the C2 theorem: a concrete replay, and a concrete state with a
pending entry taken through the `ai_result` transition. -/
theorem c2_pending_done_exclusive_witness :
    ((replay (initState none) [Event.timer 70000,
        Event.chatMsg ['u'] ("@ai hi".toList) []]).pending 1 =
      some ⟨['u'], "hi".toList, "tagged".toList, 70000⟩ ∧ (1 : Int) ≤ 1) ∧
    (¬ (((replay (initState none) [Event.timer 70000,
          Event.chatMsg ['u'] ("@ai hi".toList) [],
          Event.aiResult false (some 1) (some ("ok".toList)) none]).pending 1).isSome ∧
        ((replay (initState none) [Event.timer 70000,
          Event.chatMsg ['u'] ("@ai hi".toList) [],
          Event.aiResult false (some 1) (some ("ok".toList)) none]).done 1).isSome)) ∧
    ((applyAiResult (replay (initState none) [Event.timer 70000,
        Event.chatMsg ['u'] ("@ai hi".toList) []]) false (some 1)
        (some ("ok".toList)) none).done 1 =
      some ⟨['u'], "hi".toList, "ok".toList, 70000⟩ ∧
     (applyAiResult (replay (initState none) [Event.timer 70000,
        Event.chatMsg ['u'] ("@ai hi".toList) []]) false (some 1)
        (some ("ok".toList)) none).pending 1 = none) :=
  ⟨⟨by decide, by decide⟩,
   c2_pending_done_exclusive.1 none [Event.timer 70000,
     Event.chatMsg ['u'] ("@ai hi".toList) [],
     Event.aiResult false (some 1) (some ("ok".toList)) none] 1,
   c2_pending_done_exclusive.2 _ 1 (some ("ok".toList)) none
     ⟨['u'], "hi".toList, "tagged".toList, 70000⟩ (by decide) (by decide)⟩

/-! ### C8: rejection mutates nothing -/

/-- The guard section only reads fields that the timestamp bookkeeping
preserves. -/
theorem admitDecision_recordTs (s : ChatState) (addr msg : List Char)
    (atts : List (List Char)) :
    admitDecision (recordTs s) addr msg atts = admitDecision s addr msg atts := by
  unfold admitDecision
  rw [recordTs_currentTime, recordTs_admin, recordTs_rlDay, recordTs_rlWindow]

/-- C8: whenever the message handler rejects an event (reply-marker, missing
trusted time, admin sender, rate limit reached, empty extracted prompt, no
trigger and not randomly selected — every `none` of the guard section), no
pending entry is created, `message_seq` is unchanged, and the daily counters
and sliding windows of every user are unchanged; counters are written only on
a successful enqueue. -/
theorem c8_rejection_no_mutation (s : ChatState) (addr msg : List Char)
    (atts : List (List Char))
    (h : admitDecision s addr msg atts = none) :
    (applyMessage s addr msg atts).pending = s.pending ∧
    (applyMessage s addr msg atts).message_seq = s.message_seq ∧
    (applyMessage s addr msg atts).rlDay = s.rlDay ∧
    (applyMessage s addr msg atts).rlWindow = s.rlWindow ∧
    (applyMessage s addr msg atts).admissions = s.admissions := by
  rcases applyMessage_cases s addr msg atts with ⟨_, heq⟩ | ⟨info, hsome, _⟩
  · rw [heq]
    exact ⟨recordTs_pending s, recordTs_message_seq s, recordTs_rlDay s,
      recordTs_rlWindow s, recordTs_admissions s⟩
  · rw [admitDecision_recordTs, h] at hsome
    cases hsome

/-- Witness for the C8 theorem: a tagged message whose prompt is empty after
trimming and dropping the leading colon is rejected without any mutation. -/
theorem c8_rejection_no_mutation_witness :
    admitDecision (replay (initState none) [Event.timer 70000]) ['u']
      ("@ai :   ".toList) [] = none ∧
    ((applyMessage (replay (initState none) [Event.timer 70000]) ['u']
        ("@ai :   ".toList) []).message_seq =
      (replay (initState none) [Event.timer 70000]).message_seq ∧
     (applyMessage (replay (initState none) [Event.timer 70000]) ['u']
        ("@ai :   ".toList) []).rlDay =
      (replay (initState none) [Event.timer 70000]).rlDay) :=
  ⟨by decide,
   (c8_rejection_no_mutation (replay (initState none) [Event.timer 70000]) ['u']
      ("@ai :   ".toList) [] (by decide)).2.1,
   (c8_rejection_no_mutation (replay (initState none) [Event.timer 70000]) ['u']
      ("@ai :   ".toList) [] (by decide)).2.2.1⟩

/-! ### C7: the random-participation predicate -/

theorem charFold_mod (l : List Char) : ∀ a : Int, 0 ≤ a → a < 0x7fffffff →
    l.foldl (fun acc c => (acc + (c.toNat : Int)) % 0x7fffffff) a =
      (a + (l.map (fun c => (c.toNat : Int))).sum) % 0x7fffffff := by
  induction l with
  | nil =>
    intro a h0 h1
    simp only [List.foldl_nil, List.map_nil, List.sum_nil, add_zero]
    omega
  | cons c rest ih =>
    intro a h0 h1
    simp only [List.foldl_cons, List.map_cons, List.sum_cons]
    rw [ih ((a + (c.toNat : Int)) % 0x7fffffff)
      (Int.emod_nonneg _ (by norm_num)) (Int.emod_lt_of_pos _ (by norm_num))]
    have hc : (0 : Int) ≤ (c.toNat : Int) := Int.natCast_nonneg _
    omega

/-- C7: the random-participation selection is exactly the predicate
`((sum of char codes mod 0x7fffffff) + floor(now / 60000)) mod 20 == 0`: a
pure function of the message text and of the minute bucket of the trusted
clock, and of nothing else (second conjunct: two clock values in the same
minute bucket select identically). -/
theorem c7_random_selection (msg : List Char) (now : Int) :
    (randomSelected msg now =
      ((((msg.map (fun c => (c.toNat : Int))).sum % 0x7fffffff) +
        Int.fdiv now 60000) % 20 == 0)) ∧
    (∀ other : Int, Int.fdiv other 60000 = Int.fdiv now 60000 →
      randomSelected msg other = randomSelected msg now) := by
  have key : ∀ t : Int, randomSelected msg t =
      ((((msg.map (fun c => (c.toNat : Int))).sum % 0x7fffffff) +
        Int.fdiv t 60000) % 20 == 0) := by
    intro t
    unfold randomSelected
    rw [charFold_mod msg 0 (by norm_num) (by norm_num), zero_add]
  refine ⟨key now, fun other hother => ?_⟩
  rw [key other, key now, hother]

/-- Witness for the C7 theorem at a concrete message and two clock values in
the same minute bucket. -/
theorem c7_random_selection_witness :
    (randomSelected ("gm all".toList) 61000 =
      (((("gm all".toList).map (fun c => (c.toNat : Int))).sum % 0x7fffffff +
        Int.fdiv 61000 60000) % 20 == 0)) ∧
    (Int.fdiv 119999 60000 = Int.fdiv 61000 60000 ∧
     randomSelected ("gm all".toList) 119999 =
       randomSelected ("gm all".toList) 61000) :=
  ⟨(c7_random_selection ("gm all".toList) 61000).1,
   by decide,
   (c7_random_selection ("gm all".toList) 61000).2 119999 (by decide)⟩

/-! ### Projection lemmas used by the rate-limit invariant -/

theorem enqueue_currentTime (s : ChatState) (addr : List Char) (info : AdmitInfo) :
    (enqueue s addr info).currentTime = s.currentTime := rfl

theorem enqueue_admissions (s : ChatState) (addr : List Char) (info : AdmitInfo) :
    (enqueue s addr info).admissions = s.admissions ++ [(addr, info.now)] := rfl

theorem enqueue_rlWindow (s : ChatState) (addr : List Char) (info : AdmitInfo) :
    (enqueue s addr info).rlWindow = fun a =>
      if a = addr then lastTen (info.last3 ++ [info.now]) else s.rlWindow a := rfl

theorem enqueue_rlDay (s : ChatState) (addr : List Char) (info : AdmitInfo) :
    (enqueue s addr info).rlDay = fun a d =>
      if a = addr ∧ d = info.dayKey then info.dailyCount + 1 else s.rlDay a d := rfl

theorem aiResultWrite_rl (s : ChatState) (q : Bool) (seq : Int)
    (r : Option (List Char)) :
    (aiResultWrite s q seq r).currentTime = s.currentTime ∧
    (aiResultWrite s q seq r).admissions = s.admissions ∧
    (aiResultWrite s q seq r).rlDay = s.rlDay ∧
    (aiResultWrite s q seq r).rlWindow = s.rlWindow := by
  unfold aiResultWrite
  split
  · split <;> exact ⟨rfl, rfl, rfl, rfl⟩
  · exact ⟨rfl, rfl, rfl, rfl⟩

theorem aiResultSummary_rl (s : ChatState) (sm : Option (List Char)) :
    (aiResultSummary s sm).currentTime = s.currentTime ∧
    (aiResultSummary s sm).admissions = s.admissions ∧
    (aiResultSummary s sm).rlDay = s.rlDay ∧
    (aiResultSummary s sm).rlWindow = s.rlWindow := by
  unfold aiResultSummary
  split <;> exact ⟨rfl, rfl, rfl, rfl⟩

theorem applyAiResult_rl (s : ChatState) (q : Bool) (seq? : Option Int)
    (r sm : Option (List Char)) :
    (applyAiResult s q seq? r sm).currentTime = s.currentTime ∧
    (applyAiResult s q seq? r sm).admissions = s.admissions ∧
    (applyAiResult s q seq? r sm).rlDay = s.rlDay ∧
    (applyAiResult s q seq? r sm).rlWindow = s.rlWindow := by
  unfold applyAiResult
  rcases seq? with _ | seq
  · exact ⟨rfl, rfl, rfl, rfl⟩
  · by_cases h : seq < 1
    · simp [h]
    · obtain ⟨w1, w2, w3, w4⟩ := aiResultWrite_rl s q seq r
      obtain ⟨u1, u2, u3, u4⟩ := aiResultSummary_rl (aiResultWrite s q seq r) sm
      rcases q <;> simp [h] <;>
        exact ⟨by rw [u1, w1], by rw [u2, w2], by rw [u3, w3], by rw [u4, w4]⟩

theorem applyFastForward_rl (s : ChatState) (q : Bool) (seq? : Option Int) :
    (applyFastForward s q seq?).currentTime = s.currentTime ∧
    (applyFastForward s q seq?).admissions = s.admissions ∧
    (applyFastForward s q seq?).rlDay = s.rlDay ∧
    (applyFastForward s q seq?).rlWindow = s.rlWindow := by
  unfold applyFastForward
  rcases seq? with _ | seq0
  · exact ⟨rfl, rfl, rfl, rfl⟩
  · rcases q <;> by_cases h : seq0 < 0 <;> simp [h] <;> split <;>
      exact ⟨rfl, rfl, rfl, rfl⟩

/-- How each event changes the trusted clock: only timer events write it. -/
theorem step_currentTime (s : ChatState) (e : Event) :
    (step s e).currentTime = match e with
      | .timer t => some t
      | _ => s.currentTime := by
  cases e with
  | timer t => rfl
  | chatMsg addr msg atts =>
    rcases applyMessage_cases s addr msg atts with ⟨_, heq⟩ | ⟨info, _, heq⟩ <;>
      simp [step, heq, enqueue_currentTime]
  | aiResult q seq? r sm => exact (applyAiResult_rl s q seq? r sm).1
  | fastForward q seq? => exact (applyFastForward_rl s q seq?).1

theorem admTimes_congr {s s' : ChatState} (h : s'.admissions = s.admissions)
    (a : List Char) : admTimes s' a = admTimes s a := by
  unfold admTimes; rw [h]

theorem lastTen_of_le (l : List Int) (h : l.length ≤ 10) : lastTen l = l := by
  unfold lastTen
  rw [if_neg (by omega)]

theorem admTimes_enqueue (s : ChatState) (addr : List Char) (info : AdmitInfo)
    (a : List Char) :
    admTimes (enqueue s addr info) a =
      admTimes s a ++ (if addr = a then [info.now] else []) := by
  unfold admTimes
  rw [enqueue_admissions, List.filter_append, List.map_append]
  congr 1
  by_cases h : addr = a <;> simp [h]

/-- A sorted list splits at a cutoff: the kept-by-eviction part is a suffix
and everything dropped is strictly below the cutoff. -/
theorem sorted_filter_decomp (cutoff : Int) (w : List Int) :
    w.Sorted (· ≤ ·) →
    ∃ w₁, w = w₁ ++ w.filter (fun t => cutoff ≤ t) ∧ ∀ t ∈ w₁, t < cutoff := by
  induction w with
  | nil => exact fun _ => ⟨[], by simp, by simp⟩
  | cons hd tl ih =>
    intro hw
    obtain ⟨hhd, htl⟩ := List.sorted_cons.mp hw
    by_cases hc : cutoff ≤ hd
    · refine ⟨[], ?_, by simp⟩
      have hall : ∀ t ∈ hd :: tl, (fun t => decide (cutoff ≤ t)) t = true := by
        intro t ht
        rcases List.mem_cons.mp ht with rfl | ht
        · simpa using hc
        · simpa using le_trans hc (hhd t ht)
      rw [List.filter_eq_self.mpr hall]
      simp
    · obtain ⟨w₁, heq, hlt⟩ := ih htl
      refine ⟨hd :: w₁, ?_, ?_⟩
      · rw [List.filter_cons_of_neg (by simpa using hc)]
        rw [List.cons_append]
        exact congrArg (hd :: ·) heq
      · intro t ht
        rcases List.mem_cons.mp ht with rfl | ht
        · omega
        · exact hlt t ht

theorem sorted_of_append_right {l₁ l₂ : List Int}
    (h : (l₁ ++ l₂).Sorted (· ≤ ·)) : l₂.Sorted (· ≤ ·) := by
  induction l₁ with
  | nil => exact h
  | cons hd tl ih => exact ih (List.sorted_cons.mp h).2

theorem sorted_append_singleton {l : List Int} {x : Int}
    (hl : l.Sorted (· ≤ ·)) (hx : ∀ y ∈ l, y ≤ x) :
    (l ++ [x]).Sorted (· ≤ ·) := by
  induction l with
  | nil => simp
  | cons hd tl ih =>
    rw [List.cons_append, List.sorted_cons]
    obtain ⟨hhd, htl⟩ := List.sorted_cons.mp hl
    refine ⟨?_, ih htl (fun y hy => hx y (List.mem_cons_of_mem hd hy))⟩
    intro b hb
    rcases List.mem_append.mp hb with hb | hb
    · exact hhd b hb
    · rw [List.mem_singleton] at hb
      subst hb
      exact hx hd (List.mem_cons_self hd tl)

/-- The facts the guard section guarantees about an admitted message. -/
theorem admitDecision_spec (s : ChatState) (addr msg : List Char)
    (atts : List (List Char)) (info : AdmitInfo)
    (h : admitDecision s addr msg atts = some info) :
    s.currentTime = some info.now ∧
    info.dayKey = Int.fdiv info.now 86400000 ∧
    info.dailyCount = s.rlDay addr info.dayKey ∧
    info.dailyCount < 1500 ∧
    info.last3 = evictWindow info.now (s.rlWindow addr) ∧
    info.last3.length < 10 := by
  unfold admitDecision at h
  split at h
  · cases h
  · split at h
    · cases h
    · rename_i now heq
      split at h
      · cases h
      · split at h
        · cases h
        · rename_i hday
          split at h
          · cases h
          · rename_i hwin
            split at h
            · split at h
              · cases h
              · injection h with h'
                subst h'
                refine ⟨heq, rfl, rfl, ?_, rfl, ?_⟩ <;> dsimp only <;> omega
            · split at h
              · cases h
              · split at h
                · injection h with h'
                  subst h'
                  refine ⟨heq, rfl, rfl, ?_, rfl, ?_⟩ <;> dsimp only <;> omega
                · cases h

/-- The invariant transfers across steps that touch none of its fields. -/
theorem rlInv_congr {s s' : ChatState}
    (hadm : s'.admissions = s.admissions) (hct : s'.currentTime = s.currentTime)
    (hday : s'.rlDay = s.rlDay) (hwin : s'.rlWindow = s.rlWindow)
    (h : RlInv s) : RlInv s' := by
  obtain ⟨hs, htb, hnc, hw, hd, hwc⟩ := h
  refine ⟨?_, ?_, ?_, ?_, ?_, ?_⟩
  · intro a; rw [admTimes_congr hadm]; exact hs a
  · intro a t ht c hc
    exact htb a t (by rwa [admTimes_congr hadm] at ht) c (by rwa [hct] at hc)
  · intro h0 a
    rw [admTimes_congr hadm, hwin]
    exact hnc (by rwa [hct] at h0) a
  · intro a
    obtain ⟨w₁, hdec, hb⟩ := hw a
    exact ⟨w₁, by rw [admTimes_congr hadm, hwin]; exact hdec,
      fun t ht c hc => hb t ht c (by rwa [hct] at hc)⟩
  · intro a d; rw [hday, admTimes_congr hadm]; exact hd a d
  · intro a T; rw [admTimes_congr hadm]; exact hwc a T

theorem rlInv_step_timer (s : ChatState) (t : Int) (h : RlInv s)
    (hmono : ∀ prev, s.currentTime = some prev → prev ≤ t) :
    RlInv { s with currentTime := some t } := by
  obtain ⟨hs, htb, hnc, hw, hd, hwc⟩ := h
  refine ⟨fun a => hs a, ?_, ?_, ?_, fun a d => hd a d, fun a T => hwc a T⟩
  · intro a t' ht' c hc
    have hc' : t = c := Option.some.inj hc
    rcases hsc : s.currentTime with _ | prev
    · have h0 := (hnc hsc a).1
      rw [show admTimes { s with currentTime := some t } a = admTimes s a from rfl,
        h0] at ht'
      cases ht'
    · have h1 : t' ≤ prev := htb a t' ht' prev hsc
      have h2 : prev ≤ t := hmono prev hsc
      omega
  · intro h0
    cases h0
  · intro a
    obtain ⟨w₁, hdec, hb⟩ := hw a
    refine ⟨w₁, hdec, ?_⟩
    intro t' ht' c hc
    have hc' : t = c := Option.some.inj hc
    rcases hsc : s.currentTime with _ | prev
    · have h0 := (hnc hsc a).1
      rw [h0] at hdec
      have hw1 : w₁ = [] := (List.append_eq_nil.mp hdec.symm).1
      rw [hw1] at ht'
      cases ht'
    · have h1 : t' < prev - 60000 := hb t' ht' prev hsc
      have h2 : prev ≤ t := hmono prev hsc
      omega

theorem rlInv_admit (s : ChatState) (addr msg : List Char)
    (atts : List (List Char)) (info : AdmitInfo)
    (hsome : admitDecision s addr msg atts = some info) (h : RlInv s) :
    RlInv (enqueue (recordTs s) addr info) := by
  obtain ⟨hct, hdayKey, hdc, hdcLt, hl3, hl3len⟩ :=
    admitDecision_spec s addr msg atts info hsome
  obtain ⟨hs, htb, hnc, hw, hd, hwc⟩ := h
  have hadm' : ∀ a, admTimes (enqueue (recordTs s) addr info) a =
      admTimes s a ++ (if addr = a then [info.now] else []) := by
    intro a
    rw [admTimes_enqueue, admTimes_congr (recordTs_admissions s)]
  have hct' : (enqueue (recordTs s) addr info).currentTime = some info.now := by
    rw [enqueue_currentTime, recordTs_currentTime]; exact hct
  have hwin' : (enqueue (recordTs s) addr info).rlWindow = fun a =>
      if a = addr then lastTen (info.last3 ++ [info.now]) else s.rlWindow a := by
    rw [enqueue_rlWindow, recordTs_rlWindow]
  have hday' : (enqueue (recordTs s) addr info).rlDay = fun a d =>
      if a = addr ∧ d = info.dayKey then info.dailyCount + 1 else s.rlDay a d := by
    rw [enqueue_rlDay, recordTs_rlDay]
  have hlast : lastTen (info.last3 ++ [info.now]) = info.last3 ++ [info.now] := by
    apply lastTen_of_le
    simp only [List.length_append, List.length_cons, List.length_nil]
    omega
  have htbNow : ∀ t ∈ admTimes s addr, t ≤ info.now :=
    fun t ht => htb addr t ht info.now hct
  -- the decomposition of the admitting user's history at the eviction cutoff
  obtain ⟨w₁, hdec, hb⟩ := hw addr
  have hwSorted : (s.rlWindow addr).Sorted (· ≤ ·) := by
    have hsa := hs addr
    rw [hdec] at hsa
    exact sorted_of_append_right hsa
  obtain ⟨wDrop, hsplit, hdropLt⟩ :=
    sorted_filter_decomp (info.now - 60000) (s.rlWindow addr) hwSorted
  have hl3' : info.last3 =
      (s.rlWindow addr).filter (fun t => info.now - 60000 ≤ t) := hl3
  have hox : admTimes s addr = (w₁ ++ wDrop) ++ info.last3 := by
    rw [hdec, hl3']
    conv_lhs => rw [hsplit]
    simp [List.append_assoc]
  have hbx : ∀ t ∈ w₁ ++ wDrop, t < info.now - 60000 := by
    intro t ht
    rcases List.mem_append.mp ht with ht | ht
    · exact hb t ht info.now hct
    · exact hdropLt t ht
  refine ⟨?_, ?_, ?_, ?_, ?_, ?_⟩
  · -- sorted
    intro a
    rw [hadm' a]
    by_cases ha : addr = a
    · subst ha
      have hcond : addr = addr := rfl
      rw [if_pos hcond]
      exact sorted_append_singleton (hs addr) htbNow
    · rw [if_neg ha, List.append_nil]
      exact hs a
  · -- timeBound
    intro a t ht c hc
    rw [hct'] at hc
    obtain rfl : info.now = c := Option.some.inj hc
    rw [hadm' a] at ht
    rcases List.mem_append.mp ht with ht | ht
    · exact htb a t ht info.now hct
    · by_cases ha : addr = a
      · rw [if_pos ha, List.mem_singleton] at ht
        omega
      · rw [if_neg ha] at ht
        cases ht
  · -- noClock
    intro h0
    rw [hct'] at h0
    cases h0
  · -- window
    intro a
    by_cases ha : addr = a
    · subst ha
      refine ⟨w₁ ++ wDrop, ?_, ?_⟩
      · have hcond : addr = addr := rfl
        rw [hadm' addr, if_pos hcond, hwin']
        show admTimes s addr ++ [info.now] =
          (w₁ ++ wDrop) ++ (if addr = addr then
            lastTen (info.last3 ++ [info.now]) else s.rlWindow addr)
        rw [if_pos hcond, hlast, hox]
        simp [List.append_assoc]
      · intro t ht c hc
        rw [hct'] at hc
        obtain rfl : info.now = c := Option.some.inj hc
        exact hbx t ht
    · obtain ⟨v₁, hdecA, hbA⟩ := hw a
      refine ⟨v₁, ?_, ?_⟩
      · rw [hadm' a, if_neg ha, List.append_nil, hwin']
        show admTimes s a = v₁ ++ (if a = addr then
          lastTen (info.last3 ++ [info.now]) else s.rlWindow a)
        rw [if_neg (fun hh : a = addr => ha hh.symm)]
        exact hdecA
      · intro t ht c hc
        rw [hct'] at hc
        obtain rfl : info.now = c := Option.some.inj hc
        exact hbA t ht info.now hct
  · -- day
    intro a d
    rw [hadm' a, hday']
    show (if a = addr ∧ d = info.dayKey then info.dailyCount + 1
        else s.rlDay a d) = _ ∧
      (if a = addr ∧ d = info.dayKey then info.dailyCount + 1
        else s.rlDay a d) ≤ 1500
    by_cases ha : addr = a
    · subst ha
      have hcond : addr = addr := rfl
      rw [if_pos hcond, List.filter_append, List.length_append]
      by_cases hdd : d = info.dayKey
      · have hpred : Int.fdiv info.now 86400000 = d := by rw [hdd, ← hdayKey]
        have hone : (([info.now] : List Int).filter
            (fun t => Int.fdiv t 86400000 = d)).length = 1 := by
          simp [List.filter_cons, hpred]
        rw [hone]
        have hcount := (hd addr d).1
        rw [if_pos ⟨rfl, hdd⟩]
        have hdc' : info.dailyCount = s.rlDay addr d := by rw [hdc, ← hdd]
        constructor
        · omega
        · omega
      · have hzero : (([info.now] : List Int).filter
            (fun t => Int.fdiv t 86400000 = d)).length = 0 := by
          have hnp : ¬ (Int.fdiv info.now 86400000 = d) := by
            rw [← hdayKey]
            exact fun hh => hdd hh.symm
          simp [List.filter_cons, hnp]
        rw [hzero]
        have hcond2 : ¬ (addr = addr ∧ d = info.dayKey) := fun hh => hdd hh.2
        rw [if_neg hcond2]
        have := hd addr d
        omega
    · rw [if_neg ha, List.append_nil]
      have hcond2 : ¬ (a = addr ∧ d = info.dayKey) :=
        fun hh => ha hh.1.symm
      rw [if_neg hcond2]
      exact hd a d
  · -- winCount
    intro a T
    rw [hadm' a]
    by_cases ha : addr = a
    · subst ha
      have hcond : addr = addr := rfl
      rw [if_pos hcond, List.filter_append, List.length_append]
      by_cases hT : T ≤ info.now ∧ info.now ≤ T + 60000
      · have hnowlen : (([info.now] : List Int).filter
            (fun t => T ≤ t ∧ t ≤ T + 60000)).length ≤ 1 := by
          simp only [List.filter_cons, List.filter_nil]
          split <;> simp
        have hold : ((admTimes s addr).filter
            (fun t => T ≤ t ∧ t ≤ T + 60000)).length ≤ 9 := by
          rw [hox, List.filter_append, List.length_append]
          have h1 : ((w₁ ++ wDrop).filter
              (fun t => T ≤ t ∧ t ≤ T + 60000)).length = 0 := by
            rw [List.length_eq_zero, List.filter_eq_nil_iff]
            intro t ht
            have := hbx t ht
            simp only [decide_eq_true_eq, not_and]
            intro hTt
            omega
          have h2 : (info.last3.filter
              (fun t => T ≤ t ∧ t ≤ T + 60000)).length ≤ info.last3.length :=
            List.length_filter_le _ _
          omega
        omega
      · have hzero : (([info.now] : List Int).filter
            (fun t => T ≤ t ∧ t ≤ T + 60000)).length = 0 := by
          simp only [List.filter_cons, List.filter_nil]
          rw [decide_eq_false (by exact hT)]
          simp
        rw [hzero]
        have := hwc addr T
        omega
    · rw [if_neg ha, List.append_nil]
      exact hwc a T

theorem rlInv_step (s : ChatState) (e : Event) (h : RlInv s)
    (hmono : ∀ t, e = .timer t → ∀ prev, s.currentTime = some prev → prev ≤ t) :
    RlInv (step s e) := by
  cases e with
  | timer t =>
    exact rlInv_step_timer s t h (hmono t rfl)
  | chatMsg addr msg atts =>
    rcases applyMessage_cases s addr msg atts with ⟨_, heq⟩ | ⟨info, hsome, heq⟩
    · rw [step, heq]
      exact rlInv_congr (recordTs_admissions s) (recordTs_currentTime s)
        (recordTs_rlDay s) (recordTs_rlWindow s) h
    · rw [step, heq]
      rw [admitDecision_recordTs] at hsome
      exact rlInv_admit s addr msg atts info hsome h
  | aiResult q seq? r sm =>
    obtain ⟨h1, h2, h3, h4⟩ := applyAiResult_rl s q seq? r sm
    exact rlInv_congr h2 h1 h3 h4 h
  | fastForward q seq? =>
    obtain ⟨h1, h2, h3, h4⟩ := applyFastForward_rl s q seq?
    exact rlInv_congr h2 h1 h3 h4 h

theorem rlInv_replay (evs : List Event) : ∀ s : ChatState, RlInv s →
    clockOk s.currentTime evs = true → RlInv (replay s evs) := by
  induction evs with
  | nil => exact fun s h _ => h
  | cons e rest ih =>
    intro s h hck
    cases e with
    | timer t =>
      have hck' : ((match s.currentTime with
          | none => true
          | some prev => decide (prev ≤ t)) && clockOk (some t) rest) = true := by
        simpa [clockOk] using hck
      rw [Bool.and_eq_true] at hck'
      obtain ⟨hc1, hc2⟩ := hck'
      have hstep : RlInv (step s (.timer t)) := by
        apply rlInv_step s _ h
        intro t' het prev hprev
        obtain rfl : t = t' := by injection het
        rw [hprev] at hc1
        exact of_decide_eq_true hc1
      have hc : (step s (.timer t)).currentTime = some t := rfl
      exact ih _ hstep (by rw [hc]; exact hc2)
    | chatMsg addr msg atts =>
      have hck' : clockOk s.currentTime rest = true := by simpa [clockOk] using hck
      have hstep := rlInv_step s (.chatMsg addr msg atts) h (fun t het => by cases het)
      refine ih _ hstep ?_
      rw [step_currentTime]
      exact hck'
    | aiResult q seq? r sm =>
      have hck' : clockOk s.currentTime rest = true := by simpa [clockOk] using hck
      have hstep := rlInv_step s (.aiResult q seq? r sm) h (fun t het => by cases het)
      refine ih _ hstep ?_
      rw [step_currentTime]
      exact hck'
    | fastForward q seq? =>
      have hck' : clockOk s.currentTime rest = true := by simpa [clockOk] using hck
      have hstep := rlInv_step s (.fastForward q seq?) h (fun t het => by cases het)
      refine ih _ hstep ?_
      rw [step_currentTime]
      exact hck'

/-- C3: assuming the trusted clock is non-decreasing across the replay, a
non-administrator user is admitted (i.e. gets a pending entry created, as
recorded by the ghost admission log) at most 10 times in any closed 60000ms
window and at most 1500 times within one `dayKey = floor(now / 86400000)`
bucket. -/
theorem c3_rate_limits (adm : Option (List Char)) (evs : List Event)
    (a : List Char) (T d : Int)
    (hclk : clockOk none evs = true) ( _hna : adm ≠ some a) :
    (((admTimes (replay (initState adm) evs) a).filter
        (fun t => T ≤ t ∧ t ≤ T + 60000)).length ≤ 10) ∧
    (((admTimes (replay (initState adm) evs) a).filter
        (fun t => Int.fdiv t 86400000 = d)).length ≤ 1500) := by
  have hinit : RlInv (initState adm) := by
    refine ⟨?_, ?_, ?_, ?_, ?_, ?_⟩
    · intro a'; simp [admTimes, initState]
    · intro a' t ht; simp [admTimes, initState] at ht
    · intro _ a'; exact ⟨rfl, rfl⟩
    · intro a'; exact ⟨[], rfl, by simp⟩
    · intro a' d'; exact ⟨rfl, by norm_num [initState]⟩
    · intro a' T'; simp [admTimes, initState]
  have h := rlInv_replay evs (initState adm) hinit hclk
  refine ⟨h.winCount a T, ?_⟩
  have hdd := h.day a d
  omega

/-- Witness for the C3 theorem at a concrete monotone-clock replay. -/
theorem c3_rate_limits_witness :
    (clockOk none [Event.timer 70000,
        Event.chatMsg ['u'] ("@ai hi".toList) []] = true ∧
     (none : Option (List Char)) ≠ some ['u']) ∧
    (((admTimes (replay (initState none) [Event.timer 70000,
        Event.chatMsg ['u'] ("@ai hi".toList) []]) ['u']).filter
        (fun t => (10000 : Int) ≤ t ∧ t ≤ 10000 + 60000)).length ≤ 10) ∧
    (((admTimes (replay (initState none) [Event.timer 70000,
        Event.chatMsg ['u'] ("@ai hi".toList) []]) ['u']).filter
        (fun t => Int.fdiv t 86400000 = 0)).length ≤ 1500) :=
  ⟨⟨by decide, by decide⟩,
   (c3_rate_limits none _ ['u'] 10000 0 (by decide) (by decide)).1,
   (c3_rate_limits none _ ['u'] 10000 0 (by decide) (by decide)).2⟩

/-- Witness for the C6 theorem at a concrete state and request. -/
theorem c6_fast_forward_clamp_witness :
    0 ≤ ({ initState none with process_seq := 2, message_seq := 5 } : ChatState).process_seq ∧
    (applyFastForward { initState none with process_seq := 2, message_seq := 5 } false
        (some 9)).process_seq =
      max ({ initState none with process_seq := 2, message_seq := 5 } : ChatState).process_seq
        (min 9 ({ initState none with process_seq := 2, message_seq := 5 } : ChatState).message_seq) :=
  ⟨by decide, (c6_fast_forward_clamp { initState none with process_seq := 2, message_seq := 5 }
    9 (by decide)).1⟩

/-- C5: when every attempt fails, the client has retried exactly the three
minimized-context attempts with exponential backoff 1s, 2s, 4s, and — outside
the post-success grace interval and outside the warm-up interval — the fixed
apology string becomes the reply; committing that reply through `ai_result`
still advances `process_seq` to the target seq. -/
theorem c5_retry_policy :
    (∀ (outcome : Nat → Option (List Char)) (silentCapOpen : Bool),
      (∀ k, k < 3 → outcome k = none) →
      retryBranchResult outcome false false silentCapOpen =
        RetryResult.reply apologyText) ∧
    (backoffMs 0 = 1000 ∧ backoffMs 1 = 2000 ∧ backoffMs 2 = 4000) ∧
    (∀ (s : ChatState) (n : Int) (sm : Option (List Char)), 1 ≤ n →
      (applyAiResult s false (some n) (some apologyText) sm).process_seq = n) := by
  refine ⟨?_, ⟨rfl, rfl, rfl⟩, ?_⟩
  · intro outcome sco hfail
    have h0 := hfail 0 (by omega)
    have h1 := hfail 1 (by omega)
    have h2 := hfail 2 (by omega)
    unfold retryBranchResult runRetries
    simp [retryFrom, h0, h1, h2]
  · intro s n sm hn
    exact applyAiResult_tagged_process_seq s n (some apologyText) sm hn

/-- Witness for the C5 theorem with an always-failing endpoint. -/
theorem c5_retry_policy_witness :
    ((∀ k, k < 3 → (fun _ => (none : Option (List Char))) k = none) ∧
     retryBranchResult (fun _ => none) false false false =
       RetryResult.reply apologyText) ∧
    ((1 : Int) ≤ 1 ∧
     (applyAiResult (initState none) false (some 1)
        (some apologyText) none).process_seq = 1) :=
  ⟨⟨fun _ _ => rfl, c5_retry_policy.1 (fun _ => none) false (fun _ _ => rfl)⟩,
   ⟨by decide, c5_retry_policy.2.2 (initState none) 1 none (by decide)⟩⟩

/-- C9 (the code evaluated at the failing input): the source comment
documents "Shrink reply by 20% (min step 200 chars)", but the 200-character
branch is unreachable for any non-empty candidate — from length 500 the loop
shrinks to 400, a step of only 100 characters, and with a transport limit
admitting 300 characters it takes three shrinks (500 → 400 → 320 → 256)
where a step bounded below by 200 would need one. -/
theorem c9_shrink_step_below_200 :
    shrinkStep 500 = some 400 ∧ 500 - 400 < 200 ∧
    shrinkLoop (fun l => decide (l ≤ 300)) 500 = some 256 := by
  decide

/-- C10: at oracle startup with `message_seq > process_seq`, one fast-forward
to `message_seq` is emitted before any item is processed; applying it sets
`process_seq = message_seq`, creates no done entry and deletes no pending
entry, and afterwards the loop selects no seq — every backlog prompt stays
pending without ever receiving a reply. -/
theorem c10_startup_fast_forward (s : ChatState)
    (h0 : 0 ≤ s.process_seq) (hlt : s.process_seq < s.message_seq) :
    startupFastForward s.process_seq s.message_seq = some s.message_seq ∧
    (applyFastForward s false (some s.message_seq)).process_seq = s.message_seq ∧
    (applyFastForward s false (some s.message_seq)).pending = s.pending ∧
    (applyFastForward s false (some s.message_seq)).done = s.done ∧
    chooseNext (applyFastForward s false (some s.message_seq)).process_seq
      (applyFastForward s false (some s.message_seq)).message_seq = none := by
  have hp := applyFastForward_tagged_process_seq s s.message_seq h0
  have hm := applyFastForward_message_seq s false (some s.message_seq)
  have hpd := applyFastForward_pending s false (some s.message_seq)
  have hps : (applyFastForward s false (some s.message_seq)).process_seq =
      s.message_seq := by
    rw [hp, min_self, max_eq_right (le_of_lt hlt)]
  refine ⟨?_, hps, hpd.1, hpd.2.1, ?_⟩
  · unfold startupFastForward
    rw [if_pos hlt]
  · unfold chooseNext
    rw [hps, hm, if_neg (by omega)]

/-- Witness for the C10 theorem at a concrete backlogged state. -/
theorem c10_startup_fast_forward_witness :
    (0 ≤ ({ initState none with message_seq := 3 } : ChatState).process_seq ∧
     ({ initState none with message_seq := 3 } : ChatState).process_seq <
       ({ initState none with message_seq := 3 } : ChatState).message_seq) ∧
    (startupFastForward
        ({ initState none with message_seq := 3 } : ChatState).process_seq
        ({ initState none with message_seq := 3 } : ChatState).message_seq =
      some ({ initState none with message_seq := 3 } : ChatState).message_seq ∧
     (applyFastForward { initState none with message_seq := 3 } false
        (some ({ initState none with message_seq := 3 } : ChatState).message_seq)).process_seq =
      ({ initState none with message_seq := 3 } : ChatState).message_seq) :=
  ⟨⟨by decide, by decide⟩,
   (c10_startup_fast_forward { initState none with message_seq := 3 }
      (by decide) (by decide)).1,
   (c10_startup_fast_forward { initState none with message_seq := 3 }
      (by decide) (by decide)).2.1⟩

theorem demoteYouGo_nil (fuel : Nat) : demoteYouGo fuel [] = [] := by
  cases fuel <;> rfl

theorem demoteAiGo_nil (fuel : Nat) : demoteAiGo fuel [] = [] := by
  cases fuel <;> rfl

theorem demoteTagGo_nil (tag : List Char) (fuel : Nat) (w : Bool) :
    demoteTagGo tag fuel w [] = [] := by
  cases fuel <;> rfl

theorem demoteHexGo_nil (fuel : Nat) : demoteHexGo fuel [] = [] := by
  cases fuel <;> rfl

theorem hasAtAi_tail {c : Char} {l : List Char} (h : hasAtAi (c :: l) = false) :
    hasAtAi l = false := by
  simp only [hasAtAi, Bool.or_eq_false_iff] at h
  exact h.2

theorem hasAtAi_cons_not_here {c : Char} {l : List Char}
    (h : hasAtAi (c :: l) = false) (hc : c = '@') : atAiHere l = false := by
  subst hc
  simp only [hasAtAi, Bool.or_eq_false_iff, Bool.and_eq_false_iff] at h
  rcases h.1 with h1 | h1
  · simp at h1
  · exact h1

theorem noDoubleAt_tail {c : Char} {l : List Char}
    (h : noDoubleAt (c :: l) = true) : noDoubleAt l = true := by
  simp only [noDoubleAt, Bool.and_eq_true] at h
  exact h.2

theorem noDoubleAt_at_head {c1 : Char} {l : List Char}
    (h : noDoubleAt ('@' :: c1 :: l) = true) : (c1 == '@') = false := by
  simp only [noDoubleAt, headIsAt, Bool.and_eq_true, Bool.not_eq_true',
    Bool.and_eq_false_iff] at h
  rcases h.1 with h1 | h1
  · simp at h1
  · exact h1

theorem hasAtAi_append_right {a b : List Char}
    (h : hasAtAi (a ++ b) = false) : hasAtAi b = false := by
  induction a with
  | nil => exact h
  | cons c a' ih =>
    rw [List.cons_append] at h
    exact ih (hasAtAi_tail h)

theorem noDoubleAt_append_right {a b : List Char}
    (h : noDoubleAt (a ++ b) = true) : noDoubleAt b = true := by
  induction a with
  | nil => exact h
  | cons c a' ih =>
    rw [List.cons_append] at h
    exact ih (noDoubleAt_tail h)

theorem hasAtAi_append_no_at {a b : List Char}
    (ha : ∀ x ∈ a, (x == '@') = false) :
    hasAtAi (a ++ b) = hasAtAi b := by
  induction a with
  | nil => rfl
  | cons c a' ih =>
    rw [List.cons_append]
    simp only [hasAtAi]
    rw [ha c (List.mem_cons_self c a'), ih (fun x hx => ha x (List.mem_cons_of_mem c hx))]
    simp

theorem noDoubleAt_append_no_at {a b : List Char}
    (ha : ∀ x ∈ a, (x == '@') = false) :
    noDoubleAt (a ++ b) = noDoubleAt b := by
  induction a with
  | nil => rfl
  | cons c a' ih =>
    rw [List.cons_append]
    simp only [noDoubleAt]
    rw [ha c (List.mem_cons_self c a'), ih (fun x hx => ha x (List.mem_cons_of_mem c hx))]
    simp

theorem ciMatch_suffix (ts : List Char) : ∀ l rest2, ciMatch ts l = some rest2 →
    ∃ pre, l = pre ++ rest2 := by
  induction ts with
  | nil =>
    intro l rest2 h
    obtain rfl : l = rest2 := by injection h
    exact ⟨[], rfl⟩
  | cons t ts ih =>
    intro l rest2 h
    rcases l with _ | ⟨c, cs⟩
    · cases h
    · simp only [ciMatch] at h
      split at h
      · obtain ⟨pre, hpre⟩ := ih cs rest2 h
        exact ⟨c :: pre, by rw [hpre, List.cons_append]⟩
      · cases h

theorem hexMatch_spec (n : Nat) : ∀ l hx rest2, hexMatch n l = some (hx, rest2) →
    l = hx ++ rest2 ∧ hx.length = n ∧ ∀ x ∈ hx, isHexChar x = true := by
  induction n with
  | zero =>
    intro l hx rest2 h
    simp only [hexMatch] at h
    simp only [hexMatch, Option.some.injEq, Prod.mk.injEq] at h
    obtain ⟨rfl, rfl⟩ := h
    exact ⟨rfl, rfl, by simp⟩
  | succ n ih =>
    intro l hx rest2 h
    rcases l with _ | ⟨c, cs⟩
    · cases h
    · simp only [hexMatch] at h
      split at h
      · rename_i hhex
        rcases hrec : hexMatch n cs with _ | ⟨hx', rest2'⟩
        · rw [hrec] at h; cases h
        · rw [hrec] at h
          obtain ⟨rfl, rfl⟩ : c :: hx' = hx ∧ rest2' = rest2 := by
            injection h with h'
            injection h' with h1 h2
            exact ⟨h1, h2⟩
          obtain ⟨heq, hlen, hall⟩ := ih cs hx' rest2' hrec
          refine ⟨by rw [heq, List.cons_append], by simp [hlen], ?_⟩
          intro x hx
          rcases List.mem_cons.mp hx with rfl | hx
          · exact hhex
          · exact hall x hx
      · cases h

theorem demoteYouGo_head (fuel : Nat) (c : Char) (l : List Char) :
    ∃ d t, demoteYouGo fuel (c :: l) = d :: t ∧ (d = c ∨ (c = '@' ∧ d = 'y')) := by
  cases fuel with
  | zero => exact ⟨c, l, rfl, Or.inl rfl⟩
  | succ fuel =>
    by_cases hc : c = '@'
    · subst hc
      rcases l with _ | ⟨c1, _ | ⟨c2, _ | ⟨c3, l3⟩⟩⟩
      · exact ⟨'@', demoteYouGo fuel [], by simp [demoteYouGo], Or.inl rfl⟩
      · exact ⟨'@', demoteYouGo fuel [c1], by simp [demoteYouGo], Or.inl rfl⟩
      · exact ⟨'@', demoteYouGo fuel [c1, c2], by simp [demoteYouGo], Or.inl rfl⟩
      · cases hm : (ciY c1 && ciO c2 && ciU c3 && boundaryAfterWordChar l3)
        · exact ⟨'@', demoteYouGo fuel (c1 :: c2 :: c3 :: l3),
            by simp [demoteYouGo, hm], Or.inl rfl⟩
        · exact ⟨'y', 'o' :: 'u' :: demoteYouGo fuel l3,
            by simp [demoteYouGo, hm], Or.inr ⟨rfl, rfl⟩⟩
    · exact ⟨c, demoteYouGo fuel l, by simp [demoteYouGo, hc], Or.inl rfl⟩

theorem demoteAiGo_head (fuel : Nat) (c : Char) (l : List Char) :
    ∃ d t, demoteAiGo fuel (c :: l) = d :: t ∧ (d = c ∨ (c = '@' ∧ d = 'a')) := by
  cases fuel with
  | zero => exact ⟨c, l, rfl, Or.inl rfl⟩
  | succ fuel =>
    by_cases hc : c = '@'
    · subst hc
      rcases l with _ | ⟨c1, _ | ⟨c2, l2⟩⟩
      · exact ⟨'@', demoteAiGo fuel [], by simp [demoteAiGo], Or.inl rfl⟩
      · exact ⟨'@', demoteAiGo fuel [c1], by simp [demoteAiGo], Or.inl rfl⟩
      · cases hm : (ciA c1 && ciI c2 && boundaryAfterWordChar l2)
        · exact ⟨'@', demoteAiGo fuel (c1 :: c2 :: l2),
            by simp [demoteAiGo, hm], Or.inl rfl⟩
        · exact ⟨'a', 'i' :: demoteAiGo fuel l2,
            by simp [demoteAiGo, hm], Or.inr ⟨rfl, rfl⟩⟩
    · exact ⟨c, demoteAiGo fuel l, by simp [demoteAiGo, hc], Or.inl rfl⟩

theorem demoteTagGo_head_ne (tag : List Char) (fuel : Nat) (w : Bool)
    (c : Char) (l : List Char) (hc : ¬ c = '@') :
    ∃ t, demoteTagGo tag fuel w (c :: l) = c :: t := by
  cases fuel with
  | zero => exact ⟨l, rfl⟩
  | succ fuel => exact ⟨demoteTagGo tag fuel (isWordChar c) l, by simp [demoteTagGo, hc]⟩

theorem demoteTagGo_head_at_word (tag : List Char) (fuel : Nat) (l : List Char) :
    ∃ t, demoteTagGo tag fuel true ('@' :: l) = '@' :: t := by
  cases fuel with
  | zero => exact ⟨l, rfl⟩
  | succ fuel => exact ⟨demoteTagGo tag fuel false l, by simp [demoteTagGo]⟩

theorem demoteHexGo_head (fuel : Nat) (c : Char) (l : List Char) :
    ∃ d t, demoteHexGo fuel (c :: l) = d :: t ∧
      (d = c ∨ (c = '@' ∧ isHexChar d = true)) := by
  cases fuel with
  | zero => exact ⟨c, l, rfl, Or.inl rfl⟩
  | succ fuel =>
    by_cases hc : c = '@'
    · subst hc
      rcases hm : hexMatch 64 l with _ | ⟨hx, rest2⟩
      · exact ⟨'@', demoteHexGo fuel l, by simp [demoteHexGo, hm], Or.inl rfl⟩
      · obtain ⟨heq, hlen, hall⟩ := hexMatch_spec 64 l hx rest2 hm
        cases hbd : boundaryAfterWordChar rest2
        · exact ⟨'@', demoteHexGo fuel l, by simp [demoteHexGo, hm, hbd], Or.inl rfl⟩
        · rcases hx with _ | ⟨h0, hxs⟩
          · simp at hlen
          · exact ⟨h0, hxs ++ demoteHexGo fuel rest2,
              by simp [demoteHexGo, hm, hbd],
              Or.inr ⟨rfl, hall h0 (List.mem_cons_self h0 hxs)⟩⟩
    · exact ⟨c, demoteHexGo fuel l, by simp [demoteHexGo, hc], Or.inl rfl⟩

theorem hasAtAi_cons_ne {c : Char} {Y : List Char} (hc : (c == '@') = false)
    (h : hasAtAi Y = false) : hasAtAi (c :: Y) = false := by
  simp [hasAtAi, hc, h]

theorem hasAtAi_cons_at {Y : List Char} (h1 : atAiHere Y = false)
    (h2 : hasAtAi Y = false) : hasAtAi ('@' :: Y) = false := by
  simp [hasAtAi, h1, h2]

theorem noDoubleAt_cons_at {Y : List Char} (h1 : headIsAt Y = false)
    (h2 : noDoubleAt Y = true) : noDoubleAt ('@' :: Y) = true := by
  simp [noDoubleAt, h1, h2]

theorem noDoubleAt_cons_ne {c : Char} {Y : List Char} (hc : (c == '@') = false)
    (h2 : noDoubleAt Y = true) : noDoubleAt (c :: Y) = true := by
  simp [noDoubleAt, hc, h2]

theorem atAiHere_cons_notA {c : Char} {X : List Char} (h : ciA c = false) :
    atAiHere (c :: X) = false := by
  rcases X with _ | ⟨e, t⟩
  · rfl
  · simp [atAiHere, h]

theorem isWordChar_at : isWordChar '@' = false := rfl

theorem demoteYouGo_cons_ne (f : Nat) (c : Char) (l : List Char) (hc : ¬ c = '@') :
    ∃ f', demoteYouGo f (c :: l) = c :: demoteYouGo f' l := by
  cases f with
  | zero => exact ⟨0, rfl⟩
  | succ f => exact ⟨f, by simp [demoteYouGo, hc]⟩

theorem demoteAiGo_cons_ne (f : Nat) (c : Char) (l : List Char) (hc : ¬ c = '@') :
    ∃ f', demoteAiGo f (c :: l) = c :: demoteAiGo f' l := by
  cases f with
  | zero => exact ⟨0, rfl⟩
  | succ f => exact ⟨f, by simp [demoteAiGo, hc]⟩

theorem demoteTagGo_cons_ne (tag : List Char) (f : Nat) (w : Bool) (c : Char)
    (l : List Char) (hc : ¬ c = '@') :
    ∃ f', demoteTagGo tag f w (c :: l) = c :: demoteTagGo tag f' (isWordChar c) l := by
  cases f with
  | zero => exact ⟨0, rfl⟩
  | succ f => exact ⟨f, by simp [demoteTagGo, hc]⟩

theorem demoteHexGo_cons_ne (f : Nat) (c : Char) (l : List Char) (hc : ¬ c = '@') :
    ∃ f', demoteHexGo f (c :: l) = c :: demoteHexGo f' l := by
  cases f with
  | zero => exact ⟨0, rfl⟩
  | succ f => exact ⟨f, by simp [demoteHexGo, hc]⟩

theorem word_ne_at {w : Char} (hw : isWordChar w = true) : ¬ w = '@' := by
  intro hh
  rw [hh] at hw
  cases hw

theorem demoteAiGo_bd (f : Nat) (w : Char) (r3 : List Char)
    (hw : isWordChar w = true) :
    boundaryAfterWordChar (demoteAiGo f (w :: r3)) = false := by
  obtain ⟨d, t, hdt, hd⟩ := demoteAiGo_head f w r3
  rw [hdt]
  obtain rfl : d = w := by
    rcases hd with rfl | ⟨h1, _⟩
    · rfl
    · exact absurd h1 (word_ne_at hw)
  simp [boundaryAfterWordChar, hw]

theorem demoteTagGo_bd (tag : List Char) (f : Nat) (w' : Bool) (w : Char)
    (r3 : List Char) (hw : isWordChar w = true) :
    boundaryAfterWordChar (demoteTagGo tag f w' (w :: r3)) = false := by
  obtain ⟨t, ht⟩ := demoteTagGo_head_ne tag f w' w r3 (word_ne_at hw)
  rw [ht]
  simp [boundaryAfterWordChar, hw]

theorem demoteHexGo_bd (f : Nat) (w : Char) (r3 : List Char)
    (hw : isWordChar w = true) :
    boundaryAfterWordChar (demoteHexGo f (w :: r3)) = false := by
  obtain ⟨d, t, hdt, hd⟩ := demoteHexGo_head f w r3
  rw [hdt]
  obtain rfl : d = w := by
    rcases hd with rfl | ⟨h1, _⟩
    · rfl
    · exact absurd h1 (word_ne_at hw)
  simp [boundaryAfterWordChar, hw]

theorem demoteYouGo_noDoubleAt (fuel : Nat) : ∀ s, noDoubleAt s = true →
    noDoubleAt (demoteYouGo fuel s) = true := by
  induction fuel with
  | zero => exact fun s h => h
  | succ fuel ih =>
    intro s h
    rcases s with _ | ⟨c, rest⟩
    · exact h
    · by_cases hc : c = '@'
      · subst hc
        rcases rest with _ | ⟨c1, rest1⟩
        · rw [show demoteYouGo (fuel + 1) ['@'] = '@' :: demoteYouGo fuel [] from
            by simp [demoteYouGo], demoteYouGo_nil]
          rfl
        · have hc1 : (c1 == '@') = false := noDoubleAt_at_head h
          have hc1' : ¬ c1 = '@' := beq_eq_false_iff_ne.mp hc1
          have hheads : ∀ f', headIsAt (demoteYouGo f' (c1 :: rest1)) = false := by
            intro f'
            obtain ⟨d, t, hdt, hd⟩ := demoteYouGo_head f' c1 rest1
            rw [hdt]
            rcases hd with rfl | ⟨_, rfl⟩
            · exact hc1
            · rfl
          have hrec : noDoubleAt (demoteYouGo fuel (c1 :: rest1)) = true :=
            ih _ (noDoubleAt_tail h)
          rcases rest1 with _ | ⟨c2, rest2⟩
          · rw [show demoteYouGo (fuel + 1) ('@' :: [c1]) =
              '@' :: demoteYouGo fuel [c1] from by simp [demoteYouGo]]
            exact noDoubleAt_cons_at (hheads fuel) hrec
          · rcases rest2 with _ | ⟨c3, rest3⟩
            · rw [show demoteYouGo (fuel + 1) ('@' :: [c1, c2]) =
                '@' :: demoteYouGo fuel [c1, c2] from by simp [demoteYouGo]]
              exact noDoubleAt_cons_at (hheads fuel) hrec
            · cases hm : (ciY c1 && ciO c2 && ciU c3 && boundaryAfterWordChar rest3)
              · rw [show demoteYouGo (fuel + 1) ('@' :: c1 :: c2 :: c3 :: rest3) =
                  '@' :: demoteYouGo fuel (c1 :: c2 :: c3 :: rest3) from
                  by simp [demoteYouGo, hm]]
                exact noDoubleAt_cons_at (hheads fuel) hrec
              · rw [show demoteYouGo (fuel + 1) ('@' :: c1 :: c2 :: c3 :: rest3) =
                  'y' :: 'o' :: 'u' :: demoteYouGo fuel rest3 from
                  by simp [demoteYouGo, hm]]
                have hr3 : noDoubleAt rest3 = true :=
                  noDoubleAt_tail (noDoubleAt_tail (noDoubleAt_tail (noDoubleAt_tail h)))
                exact noDoubleAt_cons_ne rfl (noDoubleAt_cons_ne rfl
                  (noDoubleAt_cons_ne rfl (ih _ hr3)))
      · rw [show demoteYouGo (fuel + 1) (c :: rest) =
          c :: demoteYouGo fuel rest from by simp [demoteYouGo, hc]]
        exact noDoubleAt_cons_ne (beq_eq_false_iff_ne.mpr hc) (ih _ (noDoubleAt_tail h))

theorem demoteAiGo_noDoubleAt (fuel : Nat) : ∀ s, noDoubleAt s = true →
    noDoubleAt (demoteAiGo fuel s) = true := by
  induction fuel with
  | zero => exact fun s h => h
  | succ fuel ih =>
    intro s h
    rcases s with _ | ⟨c, rest⟩
    · exact h
    · by_cases hc : c = '@'
      · subst hc
        rcases rest with _ | ⟨c1, rest1⟩
        · rw [show demoteAiGo (fuel + 1) ['@'] = '@' :: demoteAiGo fuel [] from
            by simp [demoteAiGo], demoteAiGo_nil]
          rfl
        · have hc1 : (c1 == '@') = false := noDoubleAt_at_head h
          have hheads : ∀ f', headIsAt (demoteAiGo f' (c1 :: rest1)) = false := by
            intro f'
            obtain ⟨d, t, hdt, hd⟩ := demoteAiGo_head f' c1 rest1
            rw [hdt]
            rcases hd with rfl | ⟨_, rfl⟩
            · exact hc1
            · rfl
          have hrec : noDoubleAt (demoteAiGo fuel (c1 :: rest1)) = true :=
            ih _ (noDoubleAt_tail h)
          rcases rest1 with _ | ⟨c2, rest2⟩
          · rw [show demoteAiGo (fuel + 1) ('@' :: [c1]) =
              '@' :: demoteAiGo fuel [c1] from by simp [demoteAiGo]]
            exact noDoubleAt_cons_at (hheads fuel) hrec
          · cases hm : (ciA c1 && ciI c2 && boundaryAfterWordChar rest2)
            · rw [show demoteAiGo (fuel + 1) ('@' :: c1 :: c2 :: rest2) =
                '@' :: demoteAiGo fuel (c1 :: c2 :: rest2) from
                by simp [demoteAiGo, hm]]
              exact noDoubleAt_cons_at (hheads fuel) hrec
            · rw [show demoteAiGo (fuel + 1) ('@' :: c1 :: c2 :: rest2) =
                'a' :: 'i' :: demoteAiGo fuel rest2 from by simp [demoteAiGo, hm]]
              have hr2 : noDoubleAt rest2 = true :=
                noDoubleAt_tail (noDoubleAt_tail (noDoubleAt_tail h))
              exact noDoubleAt_cons_ne rfl (noDoubleAt_cons_ne rfl (ih _ hr2))
      · rw [show demoteAiGo (fuel + 1) (c :: rest) =
          c :: demoteAiGo fuel rest from by simp [demoteAiGo, hc]]
        exact noDoubleAt_cons_ne (beq_eq_false_iff_ne.mpr hc) (ih _ (noDoubleAt_tail h))

theorem demoteAiGo_singleton (fuel : Nat) (c : Char) : demoteAiGo fuel [c] = [c] := by
  cases fuel with
  | zero => rfl
  | succ fuel =>
    by_cases hc : c = '@'
    · subst hc
      rw [show demoteAiGo (fuel + 1) ['@'] = '@' :: demoteAiGo fuel [] from
        by simp [demoteAiGo], demoteAiGo_nil]
    · rw [show demoteAiGo (fuel + 1) [c] = c :: demoteAiGo fuel [] from
        by simp [demoteAiGo, hc], demoteAiGo_nil]

theorem atAiHere_demoteAi_tail (f : Nat) (c1 c2 : Char) (rest2 : List Char)
    (hm : (ciA c1 && ciI c2 && boundaryAfterWordChar rest2) = false) :
    atAiHere (c1 :: demoteAiGo f (c2 :: rest2)) = false := by
  cases hA : ciA c1 with
  | false => exact atAiHere_cons_notA hA
  | true =>
    by_cases hc2 : c2 = '@'
    · subst hc2
      obtain ⟨d, t, hdt, hd⟩ := demoteAiGo_head f '@' rest2
      rw [hdt]
      have hdI : ciI d = false := by
        rcases hd with rfl | ⟨_, rfl⟩ <;> rfl
      simp [atAiHere, hdI]
    · obtain ⟨f', hf'⟩ := demoteAiGo_cons_ne f c2 rest2 hc2
      rw [hf']
      have hmi : (ciI c2 && boundaryAfterWordChar rest2) = false := by
        rw [hA] at hm
        simpa using hm
      cases hI : ciI c2 with
      | false => simp [atAiHere, hI]
      | true =>
        have hbd : boundaryAfterWordChar rest2 = false := by
          rw [hI] at hmi
          simpa using hmi
        rcases rest2 with _ | ⟨w, r3⟩
        · simp [boundaryAfterWordChar] at hbd
        · have hw : isWordChar w = true := by
            simpa [boundaryAfterWordChar] using hbd
          simp [atAiHere, demoteAiGo_bd f' w r3 hw]

theorem demoteAiGo_no_atAi (fuel : Nat) : ∀ s, noDoubleAt s = true →
    s.length ≤ fuel → hasAtAi (demoteAiGo fuel s) = false := by
  induction fuel with
  | zero =>
    intro s _ hlen
    rcases s with _ | ⟨c, rest⟩
    · rfl
    · simp at hlen
  | succ fuel ih =>
    intro s h hlen
    rcases s with _ | ⟨c, rest⟩
    · rfl
    · rw [List.length_cons] at hlen
      by_cases hc : c = '@'
      · subst hc
        rcases rest with _ | ⟨c1, rest1⟩
        · rw [show demoteAiGo (fuel + 1) ['@'] = '@' :: demoteAiGo fuel [] from
            by simp [demoteAiGo], demoteAiGo_nil]
          rfl
        · have hc1 : (c1 == '@') = false := noDoubleAt_at_head h
          have hc1' : ¬ c1 = '@' := beq_eq_false_iff_ne.mp hc1
          rcases rest1 with _ | ⟨c2, rest2⟩
          · rw [show demoteAiGo (fuel + 1) ('@' :: [c1]) =
              '@' :: demoteAiGo fuel [c1] from by simp [demoteAiGo],
              demoteAiGo_singleton]
            apply hasAtAi_cons_at
            · rfl
            · exact hasAtAi_cons_ne hc1 rfl
          · cases hm : (ciA c1 && ciI c2 && boundaryAfterWordChar rest2)
            · rw [show demoteAiGo (fuel + 1) ('@' :: c1 :: c2 :: rest2) =
                '@' :: demoteAiGo fuel (c1 :: c2 :: rest2) from
                by simp [demoteAiGo, hm]]
              apply hasAtAi_cons_at
              · obtain ⟨f', hf'⟩ := demoteAiGo_cons_ne fuel c1 (c2 :: rest2) hc1'
                rw [hf']
                exact atAiHere_demoteAi_tail f' c1 c2 rest2 hm
              · exact ih _ (noDoubleAt_tail h) (by simp at hlen ⊢; omega)
            · rw [show demoteAiGo (fuel + 1) ('@' :: c1 :: c2 :: rest2) =
                'a' :: 'i' :: demoteAiGo fuel rest2 from by simp [demoteAiGo, hm]]
              have hrec : hasAtAi (demoteAiGo fuel rest2) = false :=
                ih _ (noDoubleAt_tail (noDoubleAt_tail (noDoubleAt_tail h)))
                  (by simp at hlen ⊢; omega)
              exact hasAtAi_cons_ne rfl (hasAtAi_cons_ne rfl hrec)
      · rw [show demoteAiGo (fuel + 1) (c :: rest) =
          c :: demoteAiGo fuel rest from by simp [demoteAiGo, hc]]
        exact hasAtAi_cons_ne (beq_eq_false_iff_ne.mpr hc)
          (ih _ (noDoubleAt_tail h) (by omega))

theorem ciA_word {c : Char} (h : ciA c = true) : isWordChar c = true := by
  rcases Bool.or_eq_true_iff.mp h with h1 | h1
  · have hc : c = 'a' := by simpa using h1
    rw [hc]
    rfl
  · have hc : c = 'A' := by simpa using h1
    rw [hc]
    rfl

theorem ciI_not_at {c : Char} (h : ciI c = true) : ¬ c = '@' := by
  rcases Bool.or_eq_true_iff.mp h with h1 | h1
  · have hc : c = 'i' := by simpa using h1
    rw [hc]
    decide
  · have hc : c = 'I' := by simpa using h1
    rw [hc]
    decide

theorem hex_not_ciI {d : Char} (h : isHexChar d = true) : ciI d = false := by
  cases hI : ciI d with
  | false => rfl
  | true =>
    rcases Bool.or_eq_true_iff.mp hI with h1 | h1
    · have hd : d = 'i' := by simpa using h1
      rw [hd] at h
      exact absurd h (by decide)
    · have hd : d = 'I' := by simpa using h1
      rw [hd] at h
      exact absurd h (by decide)

theorem hex_ne_at {d : Char} (h : isHexChar d = true) : (d == '@') = false := by
  cases hd : (d == '@') with
  | false => rfl
  | true =>
    have : d = '@' := by simpa using hd
    rw [this] at h
    exact absurd h (by decide)

theorem demoteTagGo_noDoubleAt (tag : List Char)
    (htag : ∀ x ∈ tag, (x == '@') = false) (fuel : Nat) :
    ∀ w s, noDoubleAt s = true → noDoubleAt (demoteTagGo tag fuel w s) = true := by
  induction fuel with
  | zero => exact fun w s h => h
  | succ fuel ih =>
    intro w s h
    rcases s with _ | ⟨c, rest⟩
    · exact h
    · by_cases hc : c = '@'
      · subst hc
        have hheadF : headIsAt (demoteTagGo tag fuel false rest) = false := by
          rcases rest with _ | ⟨c1, rest1⟩
          · rw [demoteTagGo_nil]
            rfl
          · have hc1' : ¬ c1 = '@' := beq_eq_false_iff_ne.mp (noDoubleAt_at_head h)
            obtain ⟨t, ht⟩ := demoteTagGo_head_ne tag fuel false c1 rest1 hc1'
            rw [ht]
            exact beq_eq_false_iff_ne.mpr hc1'
        have hrecF : noDoubleAt (demoteTagGo tag fuel false rest) = true :=
          ih false rest (noDoubleAt_tail h)
        cases w with
        | true =>
          rw [show demoteTagGo tag (fuel + 1) true ('@' :: rest) =
            '@' :: demoteTagGo tag fuel false rest from by simp [demoteTagGo]]
          exact noDoubleAt_cons_at hheadF hrecF
        | false =>
          rcases hcm : ciMatch tag rest with _ | rest2
          · rw [show demoteTagGo tag (fuel + 1) false ('@' :: rest) =
              '@' :: demoteTagGo tag fuel false rest from by simp [demoteTagGo, hcm]]
            exact noDoubleAt_cons_at hheadF hrecF
          · cases hbd : tagTailBoundary tag rest2 with
            | false =>
              rw [show demoteTagGo tag (fuel + 1) false ('@' :: rest) =
                '@' :: demoteTagGo tag fuel false rest from
                by simp [demoteTagGo, hcm, hbd]]
              exact noDoubleAt_cons_at hheadF hrecF
            | true =>
              rw [show demoteTagGo tag (fuel + 1) false ('@' :: rest) =
                tag ++ demoteTagGo tag fuel (tagLastWord tag) rest2 from
                by simp [demoteTagGo, hcm, hbd]]
              rw [noDoubleAt_append_no_at htag]
              obtain ⟨pre, hpre⟩ := ciMatch_suffix tag rest rest2 hcm
              have hrest2 : noDoubleAt rest2 = true :=
                noDoubleAt_append_right (hpre ▸ noDoubleAt_tail h)
              exact ih _ rest2 hrest2
      · rw [show demoteTagGo tag (fuel + 1) w (c :: rest) =
          c :: demoteTagGo tag fuel (isWordChar c) rest from by simp [demoteTagGo, hc]]
        exact noDoubleAt_cons_ne (beq_eq_false_iff_ne.mpr hc)
          (ih _ rest (noDoubleAt_tail h))

theorem atAiHere_demoteTag_rest (tag : List Char) (f : Nat) (rest : List Char)
    (h : noDoubleAt ('@' :: rest) = true) (ha : atAiHere rest = false) :
    atAiHere (demoteTagGo tag f false rest) = false := by
  rcases rest with _ | ⟨c1, rest1⟩
  · rw [demoteTagGo_nil]
    rfl
  · have hc1' : ¬ c1 = '@' := beq_eq_false_iff_ne.mp (noDoubleAt_at_head h)
    obtain ⟨f', hf'⟩ := demoteTagGo_cons_ne tag f false c1 rest1 hc1'
    rw [hf']
    cases hA : ciA c1 with
    | false => exact atAiHere_cons_notA hA
    | true =>
      rw [ciA_word hA]
      rcases rest1 with _ | ⟨c2, rest2⟩
      · rw [demoteTagGo_nil]
        rfl
      · by_cases hc2 : c2 = '@'
        · subst hc2
          obtain ⟨t, ht⟩ := demoteTagGo_head_at_word tag f' rest2
          rw [ht]
          simp [atAiHere, ciI]
        · obtain ⟨f'', hf''⟩ := demoteTagGo_cons_ne tag f' true c2 rest2 hc2
          rw [hf'']
          have hmi : (ciI c2 && boundaryAfterWordChar rest2) = false := by
            have hall : (ciA c1 && ciI c2 && boundaryAfterWordChar rest2) = false := ha
            rw [hA] at hall
            simpa using hall
          cases hI : ciI c2 with
          | false => simp [atAiHere, hI]
          | true =>
            have hbd : boundaryAfterWordChar rest2 = false := by
              rw [hI] at hmi
              simpa using hmi
            rcases rest2 with _ | ⟨w, r3⟩
            · simp [boundaryAfterWordChar] at hbd
            · have hw : isWordChar w = true := by
                simpa [boundaryAfterWordChar] using hbd
              simp [atAiHere, demoteTagGo_bd tag f'' (isWordChar c2) w r3 hw]

theorem demoteTagGo_no_atAi (tag : List Char)
    (htag : ∀ x ∈ tag, (x == '@') = false) (fuel : Nat) :
    ∀ w s, noDoubleAt s = true → hasAtAi s = false →
      hasAtAi (demoteTagGo tag fuel w s) = false := by
  induction fuel with
  | zero => exact fun w s _ ha => ha
  | succ fuel ih =>
    intro w s h ha
    rcases s with _ | ⟨c, rest⟩
    · exact ha
    · by_cases hc : c = '@'
      · subst hc
        have hhereF : atAiHere (demoteTagGo tag fuel false rest) = false :=
          atAiHere_demoteTag_rest tag fuel rest h (hasAtAi_cons_not_here ha rfl)
        have hrecF : hasAtAi (demoteTagGo tag fuel false rest) = false :=
          ih false rest (noDoubleAt_tail h) (hasAtAi_tail ha)
        cases w with
        | true =>
          rw [show demoteTagGo tag (fuel + 1) true ('@' :: rest) =
            '@' :: demoteTagGo tag fuel false rest from by simp [demoteTagGo]]
          exact hasAtAi_cons_at hhereF hrecF
        | false =>
          rcases hcm : ciMatch tag rest with _ | rest2
          · rw [show demoteTagGo tag (fuel + 1) false ('@' :: rest) =
              '@' :: demoteTagGo tag fuel false rest from by simp [demoteTagGo, hcm]]
            exact hasAtAi_cons_at hhereF hrecF
          · cases hbd : tagTailBoundary tag rest2 with
            | false =>
              rw [show demoteTagGo tag (fuel + 1) false ('@' :: rest) =
                '@' :: demoteTagGo tag fuel false rest from
                by simp [demoteTagGo, hcm, hbd]]
              exact hasAtAi_cons_at hhereF hrecF
            | true =>
              rw [show demoteTagGo tag (fuel + 1) false ('@' :: rest) =
                tag ++ demoteTagGo tag fuel (tagLastWord tag) rest2 from
                by simp [demoteTagGo, hcm, hbd]]
              rw [hasAtAi_append_no_at htag]
              obtain ⟨pre, hpre⟩ := ciMatch_suffix tag rest rest2 hcm
              exact ih _ rest2
                (noDoubleAt_append_right (hpre ▸ noDoubleAt_tail h))
                (hasAtAi_append_right (hpre ▸ hasAtAi_tail ha))
      · rw [show demoteTagGo tag (fuel + 1) w (c :: rest) =
          c :: demoteTagGo tag fuel (isWordChar c) rest from by simp [demoteTagGo, hc]]
        exact hasAtAi_cons_ne (beq_eq_false_iff_ne.mpr hc)
          (ih _ rest (noDoubleAt_tail h) (hasAtAi_tail ha))

theorem atAiHere_demoteHex_rest (f : Nat) (rest : List Char)
    (h : noDoubleAt ('@' :: rest) = true) (ha : atAiHere rest = false) :
    atAiHere (demoteHexGo f rest) = false := by
  rcases rest with _ | ⟨c1, rest1⟩
  · rw [demoteHexGo_nil]
    rfl
  · have hc1' : ¬ c1 = '@' := beq_eq_false_iff_ne.mp (noDoubleAt_at_head h)
    obtain ⟨f', hf'⟩ := demoteHexGo_cons_ne f c1 rest1 hc1'
    rw [hf']
    cases hA : ciA c1 with
    | false => exact atAiHere_cons_notA hA
    | true =>
      rcases rest1 with _ | ⟨c2, rest2⟩
      · rw [demoteHexGo_nil]
        rfl
      · by_cases hc2 : c2 = '@'
        · subst hc2
          obtain ⟨d, t, hdt, hd⟩ := demoteHexGo_head f' '@' rest2
          rw [hdt]
          have hdI : ciI d = false := by
            rcases hd with rfl | ⟨_, hdhex⟩
            · rfl
            · exact hex_not_ciI hdhex
          simp [atAiHere, hdI]
        · obtain ⟨f'', hf''⟩ := demoteHexGo_cons_ne f' c2 rest2 hc2
          rw [hf'']
          have hmi : (ciI c2 && boundaryAfterWordChar rest2) = false := by
            have hall : (ciA c1 && ciI c2 && boundaryAfterWordChar rest2) = false := ha
            rw [hA] at hall
            simpa using hall
          cases hI : ciI c2 with
          | false => simp [atAiHere, hI]
          | true =>
            have hbd : boundaryAfterWordChar rest2 = false := by
              rw [hI] at hmi
              simpa using hmi
            rcases rest2 with _ | ⟨w, r3⟩
            · simp [boundaryAfterWordChar] at hbd
            · have hw : isWordChar w = true := by
                simpa [boundaryAfterWordChar] using hbd
              simp [atAiHere, demoteHexGo_bd f'' w r3 hw]

theorem demoteHexGo_no_atAi (fuel : Nat) : ∀ s, noDoubleAt s = true →
    hasAtAi s = false → hasAtAi (demoteHexGo fuel s) = false := by
  induction fuel with
  | zero => exact fun s _ ha => ha
  | succ fuel ih =>
    intro s h ha
    rcases s with _ | ⟨c, rest⟩
    · exact ha
    · by_cases hc : c = '@'
      · subst hc
        have hhereF : atAiHere (demoteHexGo fuel rest) = false :=
          atAiHere_demoteHex_rest fuel rest h (hasAtAi_cons_not_here ha rfl)
        have hrecF : hasAtAi (demoteHexGo fuel rest) = false :=
          ih rest (noDoubleAt_tail h) (hasAtAi_tail ha)
        rcases hm : hexMatch 64 rest with _ | ⟨hx, rest2⟩
        · rw [show demoteHexGo (fuel + 1) ('@' :: rest) =
            '@' :: demoteHexGo fuel rest from by simp [demoteHexGo, hm]]
          exact hasAtAi_cons_at hhereF hrecF
        · obtain ⟨heq, hlen, hall⟩ := hexMatch_spec 64 rest hx rest2 hm
          cases hbd : boundaryAfterWordChar rest2 with
          | false =>
            rw [show demoteHexGo (fuel + 1) ('@' :: rest) =
              '@' :: demoteHexGo fuel rest from by simp [demoteHexGo, hm, hbd]]
            exact hasAtAi_cons_at hhereF hrecF
          | true =>
            rw [show demoteHexGo (fuel + 1) ('@' :: rest) =
              hx ++ demoteHexGo fuel rest2 from by simp [demoteHexGo, hm, hbd]]
            rw [hasAtAi_append_no_at (fun x hxmem => hex_ne_at (hall x hxmem))]
            exact ih rest2
              (noDoubleAt_append_right (heq ▸ noDoubleAt_tail h))
              (hasAtAi_append_right (heq ▸ hasAtAi_tail ha))
      · rw [show demoteHexGo (fuel + 1) (c :: rest) =
          c :: demoteHexGo fuel rest from by simp [demoteHexGo, hc]]
        exact hasAtAi_cons_ne (beq_eq_false_iff_ne.mpr hc)
          (ih rest (noDoubleAt_tail h) (hasAtAi_tail ha))

/-- C4 (counterexample): a model output in which an extra `@` directly
precedes the trigger token defeats the single-pass demotion — replacement
happens on the original text, so `"@@ai"` becomes `"@ai"`, which still
contains the trigger token at a word boundary. -/
theorem c4_counterexample :
    hasAtAi (sanitizeReply ("peter".toList) ("@@ai".toList)) = true := by
  decide

/-- C4 (amended): for every model output containing no two adjacent `@`
characters, and a resolved tag containing no `@`, the reply body after the
four demotion passes contains no occurrence of the trigger token `@ai`
(case-insensitive, at a word boundary). -/
theorem c4_sanitize_no_trigger (tag aiText : List Char)
    (hNo2 : noDoubleAt aiText = true)
    (htag : ∀ x ∈ tag, (x == '@') = false) :
    hasAtAi (sanitizeReply tag aiText) = false := by
  have h1 : noDoubleAt (demoteYouGo aiText.length aiText) = true :=
    demoteYouGo_noDoubleAt aiText.length aiText hNo2
  have h2no : noDoubleAt (demoteAiGo (demoteYouGo aiText.length aiText).length
      (demoteYouGo aiText.length aiText)) = true :=
    demoteAiGo_noDoubleAt _ _ h1
  have h2ai : hasAtAi (demoteAiGo (demoteYouGo aiText.length aiText).length
      (demoteYouGo aiText.length aiText)) = false :=
    demoteAiGo_no_atAi _ _ h1 (le_refl _)
  show hasAtAi (demoteHexGo
    (demoteTagGo tag (demoteAiGo (demoteYouGo aiText.length aiText).length
      (demoteYouGo aiText.length aiText)).length false
      (demoteAiGo (demoteYouGo aiText.length aiText).length
        (demoteYouGo aiText.length aiText))).length
    (demoteTagGo tag (demoteAiGo (demoteYouGo aiText.length aiText).length
      (demoteYouGo aiText.length aiText)).length false
      (demoteAiGo (demoteYouGo aiText.length aiText).length
        (demoteYouGo aiText.length aiText)))) = false
  exact demoteHexGo_no_atAi _ _
    (demoteTagGo_noDoubleAt tag htag _ false _ h2no)
    (demoteTagGo_no_atAi tag htag _ false _ h2no h2ai)

/-- Witness for the amended C4 theorem at the specification's scenario
string. -/
theorem c4_sanitize_no_trigger_witness :
    (noDoubleAt ("ask @tag again @ai".toList) = true ∧
     (∀ x ∈ ("peter".toList), (x == '@') = false)) ∧
    hasAtAi (sanitizeReply ("peter".toList) ("ask @tag again @ai".toList)) = false :=
  ⟨⟨by decide, by decide⟩,
   c4_sanitize_no_trigger ("peter".toList) ("ask @tag again @ai".toList)
     (by decide) (by decide)⟩

end TracAiChat
